import Mathlib

/-!
Verification of the vehicle-routing solver (AILS engine).

This file shallowly embeds the core of the solver:
`src/ails/vrp/routing_plan.rs`, `src/ails/vrp/problem.rs`,
`src/ails/vrp/graph.rs` and `src/ails/ails.rs`.

Modelling conventions:
* `f64` distances are idealized as values of an arbitrary linearly ordered
  commutative ring `α` (the code only adds, subtracts and compares distances
  on the paths verified here); concrete evaluations instantiate `α := ℤ`.
* Rust panics (`unwrap` on `None`, out-of-range indexing) are modelled by
  `Option`: a result of `none` means the code aborts.
* The ambient random choices (`rand::thread_rng` fed into `choose`) and the
  iteration order of `HashSet` are modelled by explicit oracle parameters;
  theorems quantify over all oracles satisfying the obvious contract
  (a chosen element belongs to the choice set).
* `u32` demands and capacities are modelled as `ℕ`.
-/

deriving instance DecidableEq for Except

/-- Mirror of `InfeasibleError` in `routing_plan.rs`. -/
inductive InfeasibleError where
  | tooManyVehicles
  | exceedsVehicleCapacity
  | invalidTour
deriving DecidableEq

/-- Mirror of `LocalSearchError` in `routing_plan.rs`. -/
inductive LocalSearchError where
  | noImprovement
  | invalidArguments
  | invalidTour
deriving DecidableEq

/-- Mirror of `VehicleRoutingProblem` (`problem.rs`): the graph is folded into
the `dist` matrix and per-client `demand` view (`VehicleRoutingProblem::demand`
reads `graph.clients[client].demand`). -/
structure VehicleRoutingProblem (α : Type) where
  numberOfCustomers : ℕ
  numberOfVehicles : ℕ
  vehicleCapacity : ℕ
  demand : ℕ → ℕ
  dist : ℕ → ℕ → α

namespace RoutingPlan

variable {α : Type} [LinearOrderedCommRing α]

/-- The inner loop of `RoutingPlan::value` for one route: starting from
`prev`, add `dist client prev` for each client of the remaining route
(the code computes `instance.graph.distance(*client, prev_client)`). -/
def walkCost (dist : ℕ → ℕ → α) (prev : ℕ) : List ℕ → α
  | [] => 0
  | c :: rest => dist c prev + walkCost dist c rest

/-- `RoutingPlan::value` restricted to one route: the loop over the route
plus the closing leg `distance(route.last().unwrap(), 0)`.  An empty route
makes `route.last().unwrap()` abort, modelled by `none`. -/
def routeValue (dist : ℕ → ℕ → α) : List ℕ → Option α
  | [] => none
  | c :: rest => some (walkCost dist 0 (c :: rest) + dist ((c :: rest).getLast (by simp)) 0)

/-- `RoutingPlan::value`: total of `routeValue` over all routes; aborts
(`none`) as soon as some route is empty. -/
def value (inst : VehicleRoutingProblem α) : List (List ℕ) → Option α
  | [] => some 0
  | r :: rest => do
      let v ← routeValue inst.dist r
      let w ← value inst rest
      pure (v + w)

/-- `RoutingPlan::feasible` (`routing_plan.rs:235`): route-count check, then
the distinct-customer count check (`HashSet` cardinality), then per-route
demand versus capacity. -/
def feasible (inst : VehicleRoutingProblem α) (routes : List (List ℕ)) :
    Except InfeasibleError Unit :=
  if inst.numberOfVehicles < routes.length then .error .tooManyVehicles
  else if routes.flatten.dedup.length ≠ inst.numberOfCustomers then .error .invalidTour
  else if routes.any (fun r => inst.vehicleCapacity < (r.map inst.demand).sum) then
    .error .exceedsVehicleCapacity
  else .ok ()

/-- Cost list scanned by `RoutingPlan::lowest_cost_position`: one entry per
position of `route.iter().chain([0])`, where `prev` starts as the depot. -/
def lcpCosts (dist : ℕ → ℕ → α) (client : ℕ) (prev : ℕ) : List ℕ → List α
  | [] => [dist client prev + dist client 0 - dist prev 0]
  | next :: rest =>
      (dist client prev + dist client next - dist prev next) :: lcpCosts dist client next rest

/-- First-minimum scan with running index, mirroring the
`if cost < best_cost` update of `lowest_cost_position`. -/
def argminAux : ℕ → ℕ × α → List α → ℕ × α
  | _, best, [] => best
  | i, best, c :: rest => argminAux (i + 1) (if c < best.2 then (i, c) else best) rest

/-- `RoutingPlan::lowest_cost_position` on a given route: index and value of
the first minimal insertion cost (the `f64::INFINITY` initial best is always
replaced at the first iteration, which exists since the scanned chain is
nonempty). -/
def lowestCostPosition (dist : ℕ → ℕ → α) (client : ℕ) (route : List ℕ) : ℕ × α :=
  match lcpCosts dist client 0 route with
  | [] => (0, 0)
  | c :: rest => argminAux 1 (0, c) rest

/-- Index of the first route containing `client`
(`self.routes.iter().position(|route| route.contains(&client))`). -/
def firstRouteIdx (client : ℕ) : List (List ℕ) → Option ℕ
  | [] => none
  | r :: rest => if client ∈ r then some 0 else (firstRouteIdx client rest).map (· + 1)

/-- Index of the last route containing `client`: the `for` loops of
`inter_swap` and `intra_swap` overwrite `clientN_route` on every hit, so the
final value is the last matching route index. -/
def lastRouteIdx (client : ℕ) : List (List ℕ) → Option ℕ
  | [] => none
  | r :: rest =>
      match lastRouteIdx client rest with
      | some j => some (j + 1)
      | none => if client ∈ r then some 0 else none

/-- `RoutingPlan::inter_shift` (`routing_plan.rs:255`).  The random choice of
the target route is the oracle `pick` applied to the candidate indices
(`(0..len).filter(|&i| i != route_idx)`); `pick` returning `none` models the
`choose(..).unwrap()` abort on an empty candidate list, and an absent client
makes `position(..).unwrap()` abort.  Note the source inserts `client` into
the target route without removing it from its original route. -/
def interShift (inst : VehicleRoutingProblem α) (pick : List ℕ → Option ℕ)
    (routes : List (List ℕ)) (client : ℕ) : Option (List (List ℕ)) :=
  match firstRouteIdx client routes with
  | none => none
  | some routeIdx =>
      match pick ((List.range routes.length).filter (· ≠ routeIdx)) with
      | none => none
      | some randomRoute =>
          let clientDemand := inst.demand client
          let randomRouteDemand := ((routes.getD randomRoute []).map inst.demand).sum
          if inst.vehicleCapacity < randomRouteDemand + clientDemand then some routes
          else
            let best := lowestCostPosition inst.dist client (routes.getD randomRoute [])
            some (routes.set randomRoute ((routes.getD randomRoute []).insertIdx best.1 client))

/-- `RoutingPlan::inter_swap` (`routing_plan.rs:280`): result routes paired
with the returned error, `none` meaning `Ok(())`.  Error paths return before
any mutation, so they carry the original routes. -/
def interSwap (inst : VehicleRoutingProblem α) (routes : List (List ℕ))
    (client1 client2 : ℕ) : List (List ℕ) × Option LocalSearchError :=
  match lastRouteIdx client1 routes, lastRouteIdx client2 routes with
  | some r1, some r2 =>
      if r1 = r2 then (routes, some .invalidArguments)
      else
        let i1 := (routes.getD r1 []).indexOf client1
        let i2 := (routes.getD r2 []).indexOf client2
        let routes1 := routes.set r1 ((routes.getD r1 []).eraseIdx i1)
        let routes2 := routes1.set r2 ((routes1.getD r2 []).eraseIdx i2)
        let b1 := lowestCostPosition inst.dist client1 (routes2.getD r2 [])
        let routes3 := routes2.set r2 ((routes2.getD r2 []).insertIdx b1.1 client1)
        let b2 := lowestCostPosition inst.dist client2 (routes3.getD r1 [])
        (routes3.set r1 ((routes3.getD r1 []).insertIdx b2.1 client2), none)
  | _, _ => (routes, some .invalidTour)

/-- `RoutingPlan::intra_shift` (`routing_plan.rs:327`): aborts (`none`) when
the client is in no route; otherwise recomputes the best position (with the
client still present, as the source does), then removes and reinserts. -/
def intraShift (inst : VehicleRoutingProblem α) (routes : List (List ℕ))
    (client : ℕ) : Option (List (List ℕ)) :=
  match firstRouteIdx client routes with
  | none => none
  | some routeIdx =>
      let route := routes.getD routeIdx []
      let clientIdx := route.indexOf client
      let best := lowestCostPosition inst.dist client route
      some (routes.set routeIdx ((route.eraseIdx clientIdx).insertIdx best.1 client))

/-- `Vec::swap` on a list (both indices in range whenever the source calls it). -/
def swapIdx (l : List ℕ) (i j : ℕ) : List ℕ :=
  (l.set i (l.getD j 0)).set j (l.getD i 0)

/-- `RoutingPlan::intra_swap` (`routing_plan.rs:344`): result routes paired
with the returned error (`none` meaning `Ok(())`). -/
def intraSwap (routes : List (List ℕ)) (client1 client2 : ℕ) :
    List (List ℕ) × Option LocalSearchError :=
  match lastRouteIdx client1 routes, lastRouteIdx client2 routes with
  | some r1, some r2 =>
      if r1 ≠ r2 then (routes, some .invalidArguments)
      else
        let route := routes.getD r1 []
        let i1 := route.indexOf client1
        let i2 := route.indexOf client2
        if i1 = i2 then (routes, some .invalidArguments)
        else (routes.set r1 (swapIdx route i1 i2), none)
  | _, _ => (routes, some .invalidTour)

end RoutingPlan

namespace Problem

variable {α : Type} [LinearOrderedCommRing α]

open RoutingPlan

/-- Inner placement loop of `VehicleRoutingProblem::partition_tour`: walk the
`(vehicle_route, demand)` pairs and push the client into the first route
whose accumulated demand still fits; a client that fits nowhere is dropped. -/
def placeClient (inst : VehicleRoutingProblem α) (client : ℕ) :
    List (List ℕ × ℕ) → List (List ℕ × ℕ)
  | [] => []
  | (route, dem) :: rest =>
      if dem + inst.demand client ≤ inst.vehicleCapacity then
        (route ++ [client], dem + inst.demand client) :: rest
      else (route, dem) :: placeClient inst client rest

/-- One rotation of the partition loop: greedy assignment of the tour
clients into `number_of_vehicles` initially empty routes. -/
def greedyPartition (inst : VehicleRoutingProblem α) (clients : List ℕ) :
    List (List ℕ) :=
  (clients.foldl (fun acc c => placeClient inst c acc)
    (List.replicate inst.numberOfVehicles ([], 0))).map Prod.fst

/-- The candidate partitions tried by `partition_tour`, one per rotation of
the depot-stripped tour (`tour_without_depot.rotate_left(1)` after each
iteration). -/
def candidates (inst : VehicleRoutingProblem α) (interior : List ℕ) :
    List (List (List ℕ)) :=
  (List.range interior.length).map (fun k => greedyPartition inst (interior.rotate k))

/-- One step of the best-partition update in `partition_tour`: infeasible
candidates are skipped; otherwise the candidate replaces the incumbent only
when `partition.value(self) < best.value(self)`.  The outer `Option` models a
panic of `value()` (empty route) during that comparison. -/
def considerCandidate (inst : VehicleRoutingProblem α)
    (best? : Option (List (List ℕ))) (cand : List (List ℕ)) :
    Option (Option (List (List ℕ))) :=
  match feasible inst cand with
  | .error _ => some best?
  | .ok _ =>
      match best? with
      | none => some (some cand)
      | some best =>
          match value inst cand, value inst best with
          | some vc, some vb => some (some (if vc < vb then cand else best))
          | _, _ => none

/-- The fold of `considerCandidate` over a candidate list (panic-propagating). -/
def partitionFold (inst : VehicleRoutingProblem α)
    (cands : List (List (List ℕ))) : Option (Option (List (List ℕ))) :=
  cands.foldl (fun acc cand => acc.bind (fun b => considerCandidate inst b cand)) (some none)

/-- `VehicleRoutingProblem::partition_tour` (`problem.rs:83`): strip the depot
endpoints (`tour[1..tour.len()-1]`, which aborts when the tour has fewer than
two elements) and fold the rotation candidates.  The outer `Option` is the
panic layer, the inner one the `Option<RoutingPlan>` result. -/
def partitionTour (inst : VehicleRoutingProblem α) (tour : List ℕ) :
    Option (Option (List (List ℕ))) :=
  if tour.length < 2 then none
  else partitionFold inst (candidates inst ((tour.drop 1).dropLast))

end Problem

namespace Graph

variable {α : Type} [LinearOrderedCommRing α]

/-- The per-client ordering built by `VehicleRoutingGraph::new`
(`graph.rs:34`): the indices `1..clients.len()` (the depot `0` is *not*
included, the client itself is), sorted by distance from `i` with a stable
sort, then the distances are projected away.  Rust's stable `sort_by` is
modelled by the stable `insertionSort`. -/
def closestClients (n : ℕ) (dist : ℕ → ℕ → α) (i : ℕ) : List ℕ :=
  List.insertionSort (fun a b => dist i a ≤ dist i b) ((List.range n).drop 1)

/-- `VehicleRoutingGraph::neighbors` just iterates `closest_clients[client]`. -/
def neighbors (n : ℕ) (dist : ℕ → ℕ → α) (client : ℕ) : List ℕ :=
  closestClients n dist client

end Graph

namespace AILS

/-- Loop condition of `AILS::run` (`ails.rs:34`): the iteration continues
while `timeout.elapsed().as_secs() < 200`.  The caller-supplied timeout of
`VehicleRoutingProblem::solve` (its `timeout: Option<Duration>` argument) is
threaded here as the first argument to exhibit that the guard never reads
it: `solve` passes a fresh `Instant::now()` and the constant `200` is
hardcoded. -/
def runGuard (callerTimeoutSecs : Option ℕ) (elapsedSecs : ℕ) : Bool :=
  elapsedSecs < 200

end AILS

/-! ### Eulerian-circuit construction (`graph.rs`)

`find_eulerian_tour` and the Christofides shortcut.  The `HashSet` iteration
order (`edges.iter().next()`) is an explicit oracle `pick`; the per-vertex
edge sets kept symmetric by the source are equivalently modelled as one
remaining-edge set with an incidence filter.  The loop is embedded with a
fuel argument (structural recursion; `2 * |edges| + 2` covers every push,
every pop and the final empty-stack return, as proved below). -/

/-- Mirror of `UnorderedPair` (`unordered_pair.rs`): two endpoints with a
normalizing constructor. -/
structure UPair where
  first : ℕ
  second : ℕ
deriving DecidableEq

/-- `UnorderedPair::new`: canonicalize so the smaller endpoint comes first. -/
def UPair.new (a b : ℕ) : UPair := if a < b then ⟨a, b⟩ else ⟨b, a⟩

/-- The endpoint of `e` opposite to `v` (the `if edge.first == current`
branch of the traversal). -/
def UPair.other (e : UPair) (v : ℕ) : ℕ := if e.first = v then e.second else e.first

instance : LinearOrder UPair :=
  LinearOrder.lift' (fun e => Nat.pair e.first e.second)
    (fun a b h => by
      obtain ⟨h1, h2⟩ := Nat.pair_eq_pair.mp h
      cases a; cases b
      simp_all)

namespace Graph

/-- The remaining edges incident to `v` (the source's `vertex_to_edges[v]`,
kept in sync on both endpoints, collapses to this filter). -/
def incSet (rem : Finset UPair) (v : ℕ) : Finset UPair :=
  rem.filter (fun e => e.first = v ∨ e.second = v)

/-- The Hierholzer loop of `find_eulerian_tour` (`graph.rs:182`), with the
final remaining-edge set carried along for the proofs.  The accumulator
collects popped vertices most-recent-first, so the source's `eulerian_tour`
vector is the reversal of the first component. -/
def hierholzerAux (pick : ℕ → Finset UPair → UPair) :
    ℕ → Finset UPair → List ℕ → List ℕ → List ℕ × Finset UPair
  | 0, rem, _, acc => (acc, rem)
  | fuel + 1, rem, stack, acc =>
      match stack with
      | [] => (acc, rem)
      | v :: rest =>
          if (incSet rem v).Nonempty then
            let e := pick v (incSet rem v)
            hierholzerAux pick fuel (rem.erase e) (UPair.other e v :: v :: rest) acc
          else hierholzerAux pick fuel rem rest (v :: acc)

/-- `VehicleRoutingGraph::find_eulerian_tour`: union the MST and matching
edges (the per-vertex `HashSet`s collapse duplicates), run Hierholzer from
`mst[0].first` (`mst[0]` aborts on an empty MST), then rotate the tour so the
depot comes first (`position(|&c| c == 0).unwrap()` aborts when the depot is
not on the tour). -/
def findEulerianTour (pick : ℕ → Finset UPair → UPair) (mst matching : List UPair) :
    Option (List ℕ) :=
  match mst with
  | [] => none
  | e0 :: _ =>
      let edges := (mst ++ matching).toFinset
      let raw := (hierholzerAux pick (2 * edges.card + 2) edges [e0.first] []).1.reverse
      if (0 : ℕ) ∈ raw then some (raw.rotate (raw.indexOf 0)) else none

/-- The first-occurrence filter of
`VehicleRoutingGraph::convert_eulerian_tour_to_circuit` (`visited` set). -/
def convertAux : Finset ℕ → List ℕ → List ℕ
  | _, [] => []
  | visited, c :: rest =>
      if c ∈ visited then convertAux visited rest
      else c :: convertAux (insert c visited) rest

/-- `convert_eulerian_tour_to_circuit`: keep first occurrences, then append
the depot to close the cycle. -/
def convertEulerianTourToCircuit (tour : List ℕ) : List ℕ :=
  convertAux ∅ tour ++ [0]

/-- The tour-construction tail of `VehicleRoutingGraph::chirstofides`
(`graph.rs:223`): Eulerian tour of MST ∪ matching, then the shortcut.  The
MST and matching lists are parameters carrying the postconditions the source
establishes (and asserts) before this point: the MST spans and connects all
clients, edges are normalized pairs of client ids, and the matching pairs up
odd-degree clients (the matching itself is the external blossom capability). -/
def chirstofides (pick : ℕ → Finset UPair → UPair) (mst matching : List UPair) :
    Option (List ℕ) :=
  (findEulerianTour pick mst matching).map convertEulerianTourToCircuit

/-- Number of remaining edges incident to `v`. -/
def degree (E : Finset UPair) (v : ℕ) : ℕ := (incSet E v).card

/-- Endpoint set of an edge set. -/
def vertsE (E : Finset UPair) : Finset ℕ := E.image UPair.first ∪ E.image UPair.second

/-- One traversal step: `a` and `b` are the two endpoints of some edge. -/
def adjStep (E : Finset UPair) (a b : ℕ) : Prop :=
  ∃ e ∈ E, (e.first = a ∧ e.second = b) ∨ (e.first = b ∧ e.second = a)

/-- Connectivity along edges of `E`. -/
def Reach (E : Finset UPair) : ℕ → ℕ → Prop := Relation.ReflTransGen (adjStep E)

/-- A concrete deterministic instantiation of the `HashSet` iteration-order
oracle: pick the minimal incident edge. -/
def pickMin (v : ℕ) (s : Finset UPair) : UPair :=
  if h : s.Nonempty then s.min' h else ⟨0, 0⟩

/-- Adjacent elements are joined by an edge of `E` (consecutive-pair property
of stacks, tours and circuits). -/
def ChainE (E : Finset UPair) (l : List ℕ) : Prop :=
  List.Chain' (fun a b => UPair.new a b ∈ E) l

/-- Invariant of the Hierholzer loop that needs no degree-parity assumption.
`E` is the full edge set, `s` the start vertex. -/
structure HHCore (E : Finset UPair) (s : ℕ) (rem : Finset UPair)
    (stack acc : List ℕ) : Prop where
  rem_sub : rem ⊆ E
  stack_chain : ChainE E stack
  stack_last : ∀ h : stack ≠ [], stack.getLast h = s
  acc_noinc : ∀ v ∈ acc, incSet rem v = ∅
  consumed : ∀ e ∈ E, e ∉ rem →
    (e.first ∈ stack ∨ e.first ∈ acc) ∧ (e.second ∈ stack ∨ e.second ∈ acc)
  size : stack.length + acc.length + rem.card = 1 + E.card
  stack_verts : ∀ v ∈ stack, v ∈ vertsE E
  acc_verts : ∀ v ∈ acc, v ∈ vertsE E

/-- The odd-degree vertices of `rem` are exactly `a` and `t`, as an
exclusive pair (so none when `a = t`). -/
def ParityAt (rem : Finset UPair) (a t : ℕ) : Prop :=
  ∀ x, Odd (degree rem x) ↔ Xor' (x = a) (x = t)

/-- Parity part of the invariant (used only under the even-degree
assumption): while the tour accumulator is empty the odd-degree vertices of
`rem` are start and top (as an exclusive pair); afterwards there is an anchor
position in the stack joined by an edge to the last-popped vertex, the odd
vertices of `rem` are anchor and top, the accumulated tour is a chain and its
oldest element is the start vertex. -/
def HHPar (E : Finset UPair) (s : ℕ) (rem : Finset UPair) :
    List ℕ → List ℕ → Prop
  | stack, [] => ∀ h : stack ≠ [], ParityAt rem s (stack.head h)
  | stack, a :: t =>
      ChainE E (a :: t) ∧ (a :: t).getLast (by simp) = s ∧
        ∀ h : stack ≠ [], ∃ k, ∃ hk : k < stack.length,
          UPair.new (stack.get ⟨k, hk⟩) a ∈ E ∧
            ParityAt rem (stack.get ⟨k, hk⟩) (stack.head h)

end Graph

namespace Graph

/-- Facts about the final state of the Hierholzer loop that need no parity
assumption. -/
structure HHOut (E : Finset UPair) (rem : Finset UPair) (stack acc : List ℕ)
    (out : List ℕ) (remF : Finset UPair) : Prop where
  sub : remF ⊆ rem
  stack_mem : ∀ v ∈ stack, v ∈ out
  acc_mem : ∀ v ∈ acc, v ∈ out
  noinc : ∀ v ∈ out, incSet remF v = ∅
  consumedE : ∀ e ∈ E, e ∉ remF → e.first ∈ out ∧ e.second ∈ out
  size : out.length + remF.card = stack.length + acc.length + rem.card
  verts : ∀ v ∈ out, v ∈ vertsE E
  headEq : ∀ h : stack ≠ [], out.head? = some (stack.getLast h)
  nil_id : stack = [] → out = acc ∧ remF = rem

end Graph

/-- Multigraph degree in the raw MST ++ matching edge list (with
multiplicity), as the claim's "multigraph" reads it — before the source's
`HashSet` collapses duplicate edges. -/
def Graph.listDegree (l : List UPair) (v : ℕ) : ℕ :=
  (l.filter (fun e => decide (e.first = v ∨ e.second = v))).length

/-! ### Concrete instances used in witnesses and counterexamples -/

/-- Two customers (ids 1, 2) of demand 1, two vehicles, ample capacity.
Distances are irrelevant to the statements using it. -/
def instDup : VehicleRoutingProblem ℤ :=
  { numberOfCustomers := 2, numberOfVehicles := 2, vehicleCapacity := 100,
    demand := fun _ => 1, dist := fun _ _ => 0 }

/-- One customer (id 1) of demand 1, two vehicles, capacity 10. -/
def instOne : VehicleRoutingProblem ℤ :=
  { numberOfCustomers := 1, numberOfVehicles := 2, vehicleCapacity := 10,
    demand := fun c => if c = 0 then 0 else 1, dist := fun _ _ => 0 }

/-- Two customers of demand 1, two vehicles, capacity 10, distances zero. -/
def inst2 : VehicleRoutingProblem ℤ :=
  { numberOfCustomers := 2, numberOfVehicles := 2, vehicleCapacity := 10,
    demand := fun c => if c = 0 then 0 else 1, dist := fun _ _ => 0 }

/-- Instance whose (asymmetric-in-the-arguments) distance view makes the
cost of a route depend on the orientation of the leg between 1 and 2:
`value` reads `dist client prev`, and only the leg with `client = 1`,
`prev = 2` costs anything. -/
def instSwap : VehicleRoutingProblem ℤ :=
  { numberOfCustomers := 3, numberOfVehicles := 1, vehicleCapacity := 100,
    demand := fun _ => 1, dist := fun a b => if a = 1 ∧ b = 2 then 5 else 0 }

/-- Exact Euclidean distance matrix of the two-client list
`[(0,0) (the depot), (1,0)]`: distance 0 on the diagonal, 1 otherwise. -/
def distTwoClients : ℕ → ℕ → ℤ := fun a b => if a = b then 0 else 1

/-! ### Helper lemmas -/

namespace RoutingPlan

variable {α : Type} [LinearOrderedCommRing α]

theorem value_eq_none_of_nil_mem (inst : VehicleRoutingProblem α) :
    ∀ routes : List (List ℕ), [] ∈ routes → value inst routes = none := by
  intro routes h
  induction routes with
  | nil => cases h
  | cons r rest ih =>
      rcases List.mem_cons.mp h with h' | h'
      · subst h'
        simp [value, routeValue]
      · cases r with
        | nil => simp [value, routeValue]
        | cons c cs =>
            simp only [value, routeValue, Option.bind_eq_bind]
            rw [ih h']
            rfl

theorem firstRouteIdx_eq_none (c : ℕ) :
    ∀ routes : List (List ℕ), c ∉ routes.flatten → firstRouteIdx c routes = none := by
  intro routes h
  induction routes with
  | nil => rfl
  | cons r rest ih =>
      simp only [List.flatten_cons, List.mem_append] at h
      push_neg at h
      simp only [firstRouteIdx, if_neg h.1, ih h.2, Option.map_none']

theorem lastRouteIdx_eq_none (c : ℕ) :
    ∀ routes : List (List ℕ), c ∉ routes.flatten → lastRouteIdx c routes = none := by
  intro routes h
  induction routes with
  | nil => rfl
  | cons r rest ih =>
      simp only [List.flatten_cons, List.mem_append] at h
      push_neg at h
      simp only [lastRouteIdx, ih h.2, if_neg h.1]

end RoutingPlan

/-! ### Claim theorems -/

/-- Claim C3 (code_bug evidence): the iteration guard of `AILS::run` does not
depend on the caller-supplied timeout at all — it is the hardcoded comparison
`elapsed < 200` seconds, for every caller-supplied timeout value. -/
theorem c3_guard_hardcoded :
    ∀ (t₁ t₂ : Option ℕ) (e : ℕ),
      AILS.runGuard t₁ e = AILS.runGuard t₂ e ∧ AILS.runGuard t₁ e = decide (e < 200) :=
  fun _ _ _ => ⟨rfl, rfl⟩

/-- Claim C2 (counterexample): a plan that contains every customer of
`instDup` (ids 1 and 2) plus a duplicate of customer 1 is *not* rejected by
`feasible` — the `HashSet` cardinality check collapses the duplicate. -/
theorem c2_counterexample :
    ([[1], [2, 1]] : List (List ℕ)).flatten.count 1 = 2 ∧
      RoutingPlan.feasible instDup [[1], [2, 1]] = .ok () := by
  decide

/-- Claim C2 (amended): when the route count passes, `feasible` reports the
invalid-tour failure exactly when the number of *distinct* customer ids in
the plan differs from the instance's customer count; coverage-preserving
duplicates are accepted. -/
theorem c2_amended {α : Type} [LinearOrderedCommRing α]
    (inst : VehicleRoutingProblem α) (routes : List (List ℕ))
    (h : routes.length ≤ inst.numberOfVehicles) :
    (RoutingPlan.feasible inst routes = .error .invalidTour ↔
      routes.flatten.dedup.length ≠ inst.numberOfCustomers) := by
  unfold RoutingPlan.feasible
  rw [if_neg (by omega)]
  by_cases h2 : routes.flatten.dedup.length ≠ inst.numberOfCustomers
  · simp [if_pos h2, h2]
  · rw [if_neg h2]
    split <;> simp_all

/-- Claim C2 (witness for the amended theorem): a plan missing customer 2 is
rejected with the invalid-tour failure. -/
theorem c2_amended_witness :
    RoutingPlan.feasible instDup [[1]] = .error .invalidTour :=
  (c2_amended instDup [[1]] (by decide)).mpr (by decide)

/-- Claim C1 (code_bug evidence): on `inst2` with plan `[[1],[2]]`, relocating
client 1 into route index 1 (the only candidate target, chosen by the head
oracle) passes the capacity check but inserts the client *without removing it
from its original route*: the client then occurs twice in the plan. -/
theorem c1_interShift_duplicates :
    RoutingPlan.interShift inst2 List.head? [[1], [2]] 1 = some [[1], [1, 2]] ∧
      ([[1], [1, 2]] : List (List ℕ)).flatten.count 1 = 2 ∧
      ([[1], [2]] : List (List ℕ)).flatten.count 1 = 1 := by
  decide

/-- Claim C5 (counterexample): the inter-route and intra-route relocates
abort (`position(..).unwrap()` panic, modelled by `none`) when the named
client (7) is in no route, instead of returning a typed failure. -/
theorem c5_counterexample :
    RoutingPlan.interShift inst2 List.head? [[1], [2]] 7 = none ∧
      RoutingPlan.intraShift inst2 [[1], [2]] 7 = none := by
  decide

/-- Claim C5 (amended): when a named client is in no route, the two exchange
moves return the typed invalid-tour failure and leave the plan unchanged,
while the two relocate moves abort (panic). -/
theorem c5_amended {α : Type} [LinearOrderedCommRing α]
    (inst : VehicleRoutingProblem α) (pick : List ℕ → Option ℕ)
    (routes : List (List ℕ)) (c c1 c2 : ℕ)
    (h : c ∉ routes.flatten) (h12 : c1 ∉ routes.flatten ∨ c2 ∉ routes.flatten) :
    RoutingPlan.interShift inst pick routes c = none ∧
      RoutingPlan.intraShift inst routes c = none ∧
      RoutingPlan.interSwap inst routes c1 c2 = (routes, some .invalidTour) ∧
      RoutingPlan.intraSwap routes c1 c2 = (routes, some .invalidTour) := by
  refine ⟨?_, ?_, ?_, ?_⟩
  · unfold RoutingPlan.interShift
    rw [RoutingPlan.firstRouteIdx_eq_none c routes h]
  · unfold RoutingPlan.intraShift
    rw [RoutingPlan.firstRouteIdx_eq_none c routes h]
  · unfold RoutingPlan.interSwap
    rcases h12 with h1 | h2
    · rw [RoutingPlan.lastRouteIdx_eq_none c1 routes h1]
    · rw [RoutingPlan.lastRouteIdx_eq_none c2 routes h2]
      cases RoutingPlan.lastRouteIdx c1 routes <;> rfl
  · unfold RoutingPlan.intraSwap
    rcases h12 with h1 | h2
    · rw [RoutingPlan.lastRouteIdx_eq_none c1 routes h1]
    · rw [RoutingPlan.lastRouteIdx_eq_none c2 routes h2]
      cases RoutingPlan.lastRouteIdx c1 routes <;> rfl

/-- Claim C5 (witness for the amended theorem): concrete application with the
absent client 7 on the plan `[[1],[2]]`. -/
theorem c5_amended_witness :
    RoutingPlan.interShift inst2 List.head? [[1], [2]] 7 = none ∧
      RoutingPlan.intraShift inst2 [[1], [2]] 7 = none ∧
      RoutingPlan.interSwap inst2 [[1], [2]] 7 1 = ([[1], [2]], some .invalidTour) ∧
      RoutingPlan.intraSwap [[1], [2]] 7 1 = ([[1], [2]], some .invalidTour) :=
  c5_amended inst2 List.head? [[1], [2]] 7 7 1 (by decide) (Or.inl (by decide))

/-- Claim C10: `value()` aborts on any plan containing an empty route; and
concretely, the partitioner on `instOne` (one customer, two vehicles) returns
the plan `[[1],[]]` with an unused vehicle's empty route, which `feasible`
accepts and on which `value` aborts. -/
theorem c10_value_empty_route :
    (∀ {α : Type} [LinearOrderedCommRing α] (inst : VehicleRoutingProblem α)
        (routes : List (List ℕ)), [] ∈ routes → RoutingPlan.value inst routes = none) ∧
      Problem.partitionTour instOne [0, 1, 0] = some (some [[1], []]) ∧
      RoutingPlan.feasible instOne [[1], []] = .ok () ∧
      RoutingPlan.value instOne [[1], []] = none := by
  refine ⟨?_, by decide, by decide, by decide⟩
  intro α _ inst routes h
  exact RoutingPlan.value_eq_none_of_nil_mem inst routes h

/-- Claim C10 (witness): the universally quantified part applied to the
concrete plan produced by the partitioner. -/
theorem c10_witness : RoutingPlan.value instOne [[1], []] = none :=
  c10_value_empty_route.1 instOne [[1], []] (by decide)

/-- Claim C4 (counterexample): for the graph built from the client list
`[(0,0) depot, (1,0)]` (whose exact distance matrix is `distTwoClients`),
`neighbors(1)` is `[1]` — it contains client 1 itself and not the depot,
contradicting "every client except c itself, including the depot". -/
theorem c4_counterexample :
    Graph.neighbors 2 distTwoClients 1 = [1] ∧
      (0 : ℕ) ∉ Graph.neighbors 2 distTwoClients 1 ∧
      (1 : ℕ) ∈ Graph.neighbors 2 distTwoClients 1 := by
  decide

/-- Claim C4 (amended): for every graph and client `c`, `neighbors(c)` is a
permutation of the non-depot ids `1..n-1` (so it excludes the depot and, when
`c ≠ 0`, contains `c` itself), ordered by non-decreasing distance from `c`. -/
theorem c4_amended {α : Type} [LinearOrderedCommRing α]
    (n : ℕ) (dist : ℕ → ℕ → α) (c : ℕ) :
    (Graph.neighbors n dist c).Perm ((List.range n).drop 1) ∧
      (Graph.neighbors n dist c).Sorted (fun a b => dist c a ≤ dist c b) := by
  constructor
  · exact List.perm_insertionSort _ _
  · letI : IsTotal ℕ (fun a b => dist c a ≤ dist c b) := ⟨fun a b => le_total _ _⟩
    letI : IsTrans ℕ (fun a b => dist c a ≤ dist c b) := ⟨fun a b d hab hbd => le_trans hab hbd⟩
    exact List.sorted_insertionSort _ _

/-- Claim C9 (counterexample): in the plan `[[1,1,2]]` the distinct clients 1
and 2 sit at different positions of the same route, yet applying `intra_swap`
with them twice yields `[[1,2,1]]`, whose cost under `instSwap` differs from
the original plan's cost. -/
theorem c9_counterexample :
    (RoutingPlan.intraSwap (RoutingPlan.intraSwap [[1, 1, 2]] 1 2).1 1 2).1 = [[1, 2, 1]] ∧
      RoutingPlan.value instSwap [[1, 2, 1]] = some 5 ∧
      RoutingPlan.value instSwap [[1, 1, 2]] = some 0 := by
  decide

namespace RoutingPlan

theorem count_one_pos_unique {c : ℕ} :
    ∀ (l : List ℕ) {i k : ℕ} (hi : i < l.length) (hk : k < l.length),
      l.count c = 1 → l[i] = c → l[k] = c → i = k := by
  intro l
  induction l with
  | nil => intro i k hi _ _ _ _; exact absurd hi (by simp)
  | cons a t ih =>
      intro i k hi hk hcount hic hkc
      rw [List.count_cons] at hcount
      match i, k with
      | 0, 0 => rfl
      | 0, k + 1 =>
          exfalso
          simp only [List.getElem_cons_zero] at hic
          simp only [List.getElem_cons_succ] at hkc
          rw [if_pos (by simp [hic])] at hcount
          have ht : t.count c = 0 := by omega
          exact (List.count_eq_zero.mp ht) (hkc ▸ List.getElem_mem (by simpa using hk))
      | i + 1, 0 =>
          exfalso
          simp only [List.getElem_cons_zero] at hkc
          simp only [List.getElem_cons_succ] at hic
          rw [if_pos (by simp [hkc])] at hcount
          have ht : t.count c = 0 := by omega
          exact (List.count_eq_zero.mp ht) (hic ▸ List.getElem_mem (by simpa using hi))
      | i + 1, k + 1 =>
          simp only [List.getElem_cons_succ] at hic hkc
          have ht : t.count c = 1 := by
            by_cases hac : (a == c) = true
            · exfalso
              rw [if_pos hac] at hcount
              have ht0 : t.count c = 0 := by omega
              exact (List.count_eq_zero.mp ht0) (hic ▸ List.getElem_mem (by simpa using hi))
            · rw [if_neg hac] at hcount; omega
          have := ih (by simpa using hi) (by simpa using hk) ht hic hkc
          omega

theorem indexOf_eq_of {c : ℕ} :
    ∀ (l : List ℕ) (i : ℕ) (hi : i < l.length), l[i] = c →
      (∀ k (hk : k < l.length), k < i → l[k] ≠ c) → l.indexOf c = i := by
  intro l
  induction l with
  | nil => intro i hi; exact absurd hi (by simp)
  | cons a t ih =>
      intro i hi hic hk
      match i with
      | 0 =>
          simp only [List.getElem_cons_zero] at hic
          rw [hic, List.indexOf_cons_self]
      | i + 1 =>
          have ha : a ≠ c := by
            have := hk 0 (by simp) (by omega)
            simpa using this
          rw [List.indexOf_cons_ne t ha]
          have := ih i (by simpa using hi) (by simpa using hic)
            (fun k hkt hki => by
              have := hk (k + 1) (by simpa using hkt) (by omega)
              simpa using this)
          omega

theorem lastRouteIdx_cons (c : ℕ) (p : List ℕ) (rest : List (List ℕ)) :
    lastRouteIdx c (p :: rest) =
      match lastRouteIdx c rest with
      | some j => some (j + 1)
      | none => if c ∈ p then some 0 else none := rfl

theorem lastRouteIdx_append (c : ℕ) (r : List ℕ) (post : List (List ℕ))
    (hcr : c ∈ r) (hpost : c ∉ post.flatten) :
    ∀ pre : List (List ℕ), lastRouteIdx c (pre ++ r :: post) = some pre.length := by
  intro pre
  induction pre with
  | nil =>
      simp only [List.nil_append, lastRouteIdx_cons, lastRouteIdx_eq_none c post hpost,
        if_pos hcr, List.length_nil]
  | cons p pre' ih =>
      rw [List.cons_append, lastRouteIdx_cons, ih]
      rfl

theorem getD_append_length {β : Type} (r : β) (d : β) :
    ∀ (pre : List β) (post : List β), (pre ++ r :: post).getD pre.length d = r := by
  intro pre post
  induction pre with
  | nil => rfl
  | cons p pre' ih => simpa using ih

theorem set_append_length {β : Type} (r x : β) :
    ∀ (pre : List β) (post : List β), (pre ++ r :: post).set pre.length x = pre ++ x :: post := by
  intro pre post
  induction pre with
  | nil => rfl
  | cons p pre' ih => simp [ih]

theorem swapIdx_length (l : List ℕ) (i j : ℕ) : (swapIdx l i j).length = l.length := by
  simp [swapIdx]

theorem swapIdx_getElem (l : List ℕ) (i j k : ℕ) (hi : i < l.length) (hj : j < l.length)
    (hk : k < (swapIdx l i j).length) (hkl : k < l.length) :
    (swapIdx l i j)[k] =
      if j = k then l[i] else if i = k then l[j] else l[k] := by
  simp only [swapIdx, List.getD_eq_getElem l 0 hj, List.getD_eq_getElem l 0 hi]
  rw [List.getElem_set, List.getElem_set]

theorem swapIdx_swapIdx (l : List ℕ) (i j : ℕ) (hi : i < l.length) (hj : j < l.length) :
    swapIdx (swapIdx l i j) j i = l := by
  have hlen : (swapIdx l i j).length = l.length := swapIdx_length l i j
  apply List.ext_getElem (by simp [swapIdx])
  intro k hk1 hk2
  have hj' : j < (swapIdx l i j).length := hlen ▸ hj
  have hi' : i < (swapIdx l i j).length := hlen ▸ hi
  rw [swapIdx_getElem (swapIdx l i j) j i k hj' hi' hk1 (hlen ▸ hk2)]
  by_cases hik : i = k
  · subst hik
    rw [if_pos rfl, swapIdx_getElem l i j j hi hj hj' hj, if_pos rfl]
  · rw [if_neg hik]
    by_cases hjk : j = k
    · subst hjk
      rw [if_pos rfl, swapIdx_getElem l i j i hi hj hi' hi]
      have hji : ¬ j = i := fun h => hik h.symm
      rw [if_neg hji, if_pos rfl]
    · rw [if_neg hjk, swapIdx_getElem l i j k hi hj (hlen ▸ hk2) hk2, if_neg hjk, if_neg hik]

theorem intraSwap_eq_swap (routes : List (List ℕ)) (c1 c2 ρ : ℕ)
    (h1 : lastRouteIdx c1 routes = some ρ) (h2 : lastRouteIdx c2 routes = some ρ)
    (hne : (routes.getD ρ []).indexOf c1 ≠ (routes.getD ρ []).indexOf c2) :
    intraSwap routes c1 c2 =
      (routes.set ρ (swapIdx (routes.getD ρ []) ((routes.getD ρ []).indexOf c1)
        ((routes.getD ρ []).indexOf c2)), none) := by
  unfold intraSwap
  rw [h1, h2]
  simp only [List.getD, List.get?_eq_getElem?] at hne ⊢
  simp [hne]

end RoutingPlan

namespace RoutingPlan

theorem swapIdx_facts (r : List ℕ) (c1 c2 : ℕ) (i1 i2 : ℕ)
    (hi1 : i1 < r.length) (hi2 : i2 < r.length) (h12 : i1 ≠ i2)
    (hr1 : r[i1] = c1) (hr2 : r[i2] = c2)
    (hu1 : ∀ k (hk : k < r.length), r[k] = c1 → k = i1)
    (hu2 : ∀ k (hk : k < r.length), r[k] = c2 → k = i2) :
    c1 ∈ swapIdx r i1 i2 ∧ c2 ∈ swapIdx r i1 i2 ∧
      (swapIdx r i1 i2).indexOf c1 = i2 ∧ (swapIdx r i1 i2).indexOf c2 = i1 := by
  have hlen : (swapIdx r i1 i2).length = r.length := swapIdx_length r i1 i2
  have hi1w : i1 < (swapIdx r i1 i2).length := by rw [hlen]; exact hi1
  have hi2w : i2 < (swapIdx r i1 i2).length := by rw [hlen]; exact hi2
  have hnecc : c2 ≠ c1 := by
    intro h
    apply h12
    have h21 : r[i2] = c1 := by rw [hr2, h]
    exact (hu1 i2 hi2 h21).symm
  have hncc : c1 ≠ c2 := fun h => hnecc h.symm
  have hgi2 : (swapIdx r i1 i2)[i2] = c1 := by
    rw [swapIdx_getElem r i1 i2 i2 hi1 hi2 hi2w hi2, if_pos rfl]
    exact hr1
  have hgi1 : (swapIdx r i1 i2)[i1] = c2 := by
    rw [swapIdx_getElem r i1 i2 i1 hi1 hi2 hi1w hi1, if_neg (fun h => h12 h.symm), if_pos rfl]
    exact hr2
  have hother : ∀ k (hk : k < (swapIdx r i1 i2).length) (hkr : k < r.length),
      k ≠ i1 → k ≠ i2 → (swapIdx r i1 i2)[k] = r[k] := by
    intro k hk hkr hk1 hk2
    rw [swapIdx_getElem r i1 i2 k hi1 hi2 hk hkr, if_neg (fun h => hk2 h.symm),
      if_neg (fun h => hk1 h.symm)]
  have hmem1 : c1 ∈ swapIdx r i1 i2 := by rw [← hgi2]; exact List.getElem_mem hi2w
  have hmem2 : c2 ∈ swapIdx r i1 i2 := by rw [← hgi1]; exact List.getElem_mem hi1w
  refine ⟨hmem1, hmem2, ?_, ?_⟩
  · apply indexOf_eq_of _ i2 hi2w hgi2
    intro k hk hki2
    by_cases hk1 : k = i1
    · subst hk1
      rw [hgi1]
      exact hnecc
    · rw [hother k hk (hlen ▸ hk) hk1 (by omega)]
      intro hceq
      exact hk1 (hu1 k (hlen ▸ hk) hceq)
  · apply indexOf_eq_of _ i1 hi1w hgi1
    intro k hk hki1
    by_cases hk2 : k = i2
    · subst hk2
      rw [hgi2]
      exact hncc
    · rw [hother k hk (hlen ▸ hk) (by omega) hk2]
      intro hceq
      exact hk2 (hu2 k (hlen ▸ hk) hceq)

end RoutingPlan

open RoutingPlan in
/-- Claim C9 (amended): in any plan where the two distinct clients each occur
exactly once and share a route (the situation the spec's plan invariants
describe), applying `intra_swap` with them twice restores the plan exactly,
so `value()` is unchanged. -/
theorem c9_amended {α : Type} [LinearOrderedCommRing α] (inst : VehicleRoutingProblem α)
    (routes : List (List ℕ)) (c1 c2 : ℕ) (hne : c1 ≠ c2)
    (h1 : routes.flatten.count c1 = 1) (h2 : routes.flatten.count c2 = 1)
    (hshare : ∃ r ∈ routes, c1 ∈ r ∧ c2 ∈ r) :
    (intraSwap (intraSwap routes c1 c2).1 c1 c2).1 = routes ∧
      value inst ((intraSwap (intraSwap routes c1 c2).1 c1 c2).1) = value inst routes := by
  obtain ⟨r, hrmem, hc1r, hc2r⟩ := hshare
  obtain ⟨pre, post, rfl⟩ := List.append_of_mem hrmem
  have hflat : (pre ++ r :: post).flatten = pre.flatten ++ (r ++ post.flatten) := by simp
  rw [hflat, List.count_append, List.count_append] at h1 h2
  have hc1rpos : 0 < List.count c1 r := List.count_pos_iff.mpr hc1r
  have hc2rpos : 0 < List.count c2 r := List.count_pos_iff.mpr hc2r
  have hc1post : c1 ∉ post.flatten := List.count_eq_zero.mp (by omega)
  have hc2post : c2 ∉ post.flatten := List.count_eq_zero.mp (by omega)
  have hc1r1 : List.count c1 r = 1 := by omega
  have hc2r1 : List.count c2 r = 1 := by omega
  have hi1lt : r.indexOf c1 < r.length := List.indexOf_lt_length.mpr hc1r
  have hi2lt : r.indexOf c2 < r.length := List.indexOf_lt_length.mpr hc2r
  have hri1 : r[r.indexOf c1] = c1 := List.getElem_indexOf hi1lt
  have hri2 : r[r.indexOf c2] = c2 := List.getElem_indexOf hi2lt
  have hi12 : r.indexOf c1 ≠ r.indexOf c2 := by
    intro h
    apply hne
    rw [← hri1, ← hri2]
    simp only [h]
  have hu1 : ∀ k (hk : k < r.length), r[k] = c1 → k = r.indexOf c1 :=
    fun k hk hkc => count_one_pos_unique r hk hi1lt hc1r1 hkc hri1
  have hu2 : ∀ k (hk : k < r.length), r[k] = c2 → k = r.indexOf c2 :=
    fun k hk hkc => count_one_pos_unique r hk hi2lt hc2r1 hkc hri2
  obtain ⟨hm1, hm2, hIdx1, hIdx2⟩ :=
    swapIdx_facts r c1 c2 (r.indexOf c1) (r.indexOf c2) hi1lt hi2lt hi12 hri1 hri2 hu1 hu2
  have hL1 : lastRouteIdx c1 (pre ++ r :: post) = some pre.length :=
    lastRouteIdx_append c1 r post hc1r hc1post pre
  have hL2 : lastRouteIdx c2 (pre ++ r :: post) = some pre.length :=
    lastRouteIdx_append c2 r post hc2r hc2post pre
  have hgetD : (pre ++ r :: post).getD pre.length [] = r := getD_append_length r [] pre post
  have hstep1 : intraSwap (pre ++ r :: post) c1 c2 =
      (pre ++ swapIdx r (r.indexOf c1) (r.indexOf c2) :: post, none) := by
    rw [intraSwap_eq_swap (pre ++ r :: post) c1 c2 pre.length hL1 hL2
      (by rw [hgetD]; exact hi12)]
    rw [hgetD, set_append_length]
  have hL1' : lastRouteIdx c1 (pre ++ swapIdx r (r.indexOf c1) (r.indexOf c2) :: post) =
      some pre.length :=
    lastRouteIdx_append c1 _ post hm1 hc1post pre
  have hL2' : lastRouteIdx c2 (pre ++ swapIdx r (r.indexOf c1) (r.indexOf c2) :: post) =
      some pre.length :=
    lastRouteIdx_append c2 _ post hm2 hc2post pre
  have hgetD' : (pre ++ swapIdx r (r.indexOf c1) (r.indexOf c2) :: post).getD pre.length [] =
      swapIdx r (r.indexOf c1) (r.indexOf c2) := getD_append_length _ [] pre post
  have hswapback : swapIdx (swapIdx r (r.indexOf c1) (r.indexOf c2))
      (r.indexOf c2) (r.indexOf c1) = r := swapIdx_swapIdx r _ _ hi1lt hi2lt
  have hstep2 : intraSwap (pre ++ swapIdx r (r.indexOf c1) (r.indexOf c2) :: post) c1 c2 =
      (pre ++ r :: post, none) := by
    rw [intraSwap_eq_swap _ c1 c2 pre.length hL1' hL2'
      (by rw [hgetD', hIdx1, hIdx2]; exact fun h => hi12 h.symm)]
    rw [hgetD', hIdx1, hIdx2, hswapback, set_append_length]
  constructor
  · simp only [hstep1, hstep2]
  · simp only [hstep1, hstep2]

/-- Claim C9 (witness): the amended theorem applied to the plan `[[1,2]]`. -/
theorem c9_amended_witness :
    (RoutingPlan.intraSwap (RoutingPlan.intraSwap [[1, 2]] 1 2).1 1 2).1 = [[1, 2]] ∧
      RoutingPlan.value inst2 ((RoutingPlan.intraSwap
        (RoutingPlan.intraSwap [[1, 2]] 1 2).1 1 2).1) = RoutingPlan.value inst2 [[1, 2]] :=
  c9_amended inst2 [[1, 2]] 1 2 (by decide) (by decide) (by decide)
    ⟨[1, 2], by decide, by decide, by decide⟩

namespace Problem

variable {α : Type} [LinearOrderedCommRing α]

open RoutingPlan

theorem partitionFold_append (inst : VehicleRoutingProblem α)
    (L : List (List (List ℕ))) (c : List (List ℕ)) :
    partitionFold inst (L ++ [c]) =
      (partitionFold inst L).bind (fun b => considerCandidate inst b c) := by
  simp [partitionFold, List.foldl_append]

theorem considerCandidate_error (inst : VehicleRoutingProblem α)
    (b? : Option (List (List ℕ))) (cand : List (List ℕ)) (e : InfeasibleError)
    (hfc : feasible inst cand = .error e) :
    considerCandidate inst b? cand = some b? := by
  unfold considerCandidate
  rw [hfc]

theorem considerCandidate_ok_none (inst : VehicleRoutingProblem α)
    (cand : List (List ℕ)) (hfc : feasible inst cand = .ok ()) :
    considerCandidate inst none cand = some (some cand) := by
  unfold considerCandidate
  rw [hfc]

theorem considerCandidate_ok_some (inst : VehicleRoutingProblem α)
    (b cand : List (List ℕ)) (hfc : feasible inst cand = .ok ()) :
    considerCandidate inst (some b) cand =
      match value inst cand, value inst b with
      | some vc, some vb => some (some (if vc < vb then cand else b))
      | _, _ => none := by
  unfold considerCandidate
  rw [hfc]

theorem partitionFold_none (inst : VehicleRoutingProblem α) :
    ∀ L : List (List (List ℕ)), partitionFold inst L = some none →
      ∀ j (hj : j < L.length), feasible inst (L[j]) ≠ .ok () := by
  intro L
  induction L using List.reverseRecOn with
  | nil => intro _ j hj; exact absurd hj (by simp)
  | append_singleton L c IH =>
      intro h j hj
      rw [partitionFold_append] at h
      match hL : partitionFold inst L with
      | none => rw [hL] at h; exact absurd h (by simp)
      | some none =>
          rw [hL] at h
          simp only [Option.some_bind] at h
          match hfc : feasible inst c with
          | .error e =>
              by_cases hjL : j < L.length
              · have := IH hL j hjL
                rw [List.getElem_append_left hjL]
                exact this
              · have hjc : j = L.length := by
                  have hlen := hj
                  simp only [List.length_append, List.length_cons, List.length_nil] at hlen
                  omega
                subst hjc
                rw [List.getElem_concat_length L c L.length rfl]
                rw [hfc]
                simp
          | .ok _ =>
              rw [considerCandidate_ok_none inst c hfc] at h
              exact absurd h (by simp)
      | some (some b) =>
          rw [hL] at h
          simp only [Option.some_bind] at h
          exfalso
          match hfc : feasible inst c with
          | .error e =>
              rw [considerCandidate_error inst (some b) c e hfc] at h
              exact absurd h (by simp)
          | .ok _ =>
              rw [considerCandidate_ok_some inst b c hfc] at h
              match hvc : value inst c, hvb : value inst b with
              | some vc, some vb => rw [hvc, hvb] at h; simp at h
              | some vc, none => rw [hvc, hvb] at h; simp at h
              | none, some vb => rw [hvc, hvb] at h; simp at h
              | none, none => rw [hvc, hvb] at h; simp at h

theorem partitionFold_spec (inst : VehicleRoutingProblem α) :
    ∀ (L : List (List (List ℕ))) (p : List (List ℕ)),
      partitionFold inst L = some (some p) →
      ∃ k, ∃ hk : k < L.length, L[k] = p ∧ feasible inst p = .ok () ∧
        ∀ j (hj : j < L.length), j ≠ k → feasible inst (L[j]) = .ok () →
          ∃ vp vj, value inst p = some vp ∧ value inst (L[j]) = some vj ∧
            (j < k → vp < vj) ∧ (k < j → vp ≤ vj) := by
  intro L
  induction L using List.reverseRecOn with
  | nil => intro p h; exact absurd h (by simp [partitionFold])
  | append_singleton L c IH =>
      intro p h
      rw [partitionFold_append] at h
      match hL : partitionFold inst L with
      | none => rw [hL] at h; exact absurd h (by simp)
      | some none =>
          rw [hL] at h
          simp only [Option.some_bind] at h
          match hfc : feasible inst c with
          | .error e =>
              rw [considerCandidate_error inst none c e hfc] at h
              exact absurd h (by simp)
          | .ok _ =>
              rw [considerCandidate_ok_none inst c hfc] at h
              simp only [Option.some.injEq] at h
              subst h
              refine ⟨L.length, by simp, List.getElem_concat_length L c L.length rfl _, hfc, ?_⟩
              intro j hj hjk hfj
              exfalso
              have hjL : j < L.length := by
                simp only [List.length_append, List.length_cons, List.length_nil] at hj
                omega
              rw [List.getElem_append_left hjL] at hfj
              exact partitionFold_none inst L hL j hjL hfj
      | some (some b) =>
          rw [hL] at h
          simp only [Option.some_bind] at h
          obtain ⟨kb, hkb, hgetb, hfb, hminb⟩ := IH b hL
          match hfc : feasible inst c with
          | .error e =>
              rw [considerCandidate_error inst (some b) c e hfc] at h
              simp only [Option.some.injEq] at h
              subst h
              refine ⟨kb, by simp; omega, ?_, hfb, ?_⟩
              · rw [List.getElem_append_left hkb]; exact hgetb
              · intro j hj hjk hfj
                by_cases hjL : j < L.length
                · rw [List.getElem_append_left hjL] at hfj
                  obtain ⟨vp, vj, hvp, hvj, hlt, hge⟩ := hminb j hjL hjk hfj
                  refine ⟨vp, vj, hvp, ?_, hlt, hge⟩
                  rw [List.getElem_append_left hjL]
                  exact hvj
                · exfalso
                  have hjc : j = L.length := by
                    simp only [List.length_append, List.length_cons, List.length_nil] at hj
                    omega
                  subst hjc
                  rw [List.getElem_concat_length L c L.length rfl] at hfj
                  rw [hfc] at hfj
                  exact Except.noConfusion hfj
          | .ok _ =>
              rw [considerCandidate_ok_some inst b c hfc] at h
              match hvc : value inst c, hvb : value inst b with
              | some vc, some vb =>
                  rw [hvc, hvb] at h
                  simp only [Option.some.injEq] at h
                  by_cases hlt : vc < vb
                  · rw [if_pos hlt] at h
                    subst h
                    refine ⟨L.length, by simp,
                      List.getElem_concat_length L c L.length rfl _, hfc, ?_⟩
                    intro j hj hjk hfj
                    have hjL : j < L.length := by
                      simp only [List.length_append, List.length_cons, List.length_nil] at hj
                      omega
                    rw [List.getElem_append_left hjL] at hfj
                    rw [List.getElem_append_left hjL]
                    by_cases hjkb : j = kb
                    · subst hjkb
                      refine ⟨vc, vb, hvc, ?_, fun _ => hlt, fun hc => absurd hc (by omega)⟩
                      rw [hgetb]; exact hvb
                    · obtain ⟨vb', vj, hvb', hvj, hl, hg⟩ := hminb j hjL hjkb hfj
                      have hvbeq : vb' = vb := by
                        rw [hvb'] at hvb
                        exact Option.some.inj hvb
                      subst hvbeq
                      have hble : vb' ≤ vj := by
                        rcases lt_trichotomy j kb with hc | hc | hc
                        · exact le_of_lt (hl hc)
                        · exact absurd hc hjkb
                        · exact hg hc
                      exact ⟨vc, vj, hvc, hvj, fun _ => lt_of_lt_of_le hlt hble,
                        fun hc => absurd hc (by omega)⟩
                  · rw [if_neg hlt] at h
                    subst h
                    refine ⟨kb, by simp; omega, ?_, hfb, ?_⟩
                    · rw [List.getElem_append_left hkb]; exact hgetb
                    · intro j hj hjk hfj
                      by_cases hjL : j < L.length
                      · rw [List.getElem_append_left hjL] at hfj
                        obtain ⟨vp, vj, hvp, hvj, hl, hg⟩ := hminb j hjL hjk hfj
                        refine ⟨vp, vj, hvp, ?_, hl, hg⟩
                        rw [List.getElem_append_left hjL]
                        exact hvj
                      · have hjc : j = L.length := by
                          simp only [List.length_append, List.length_cons,
                            List.length_nil] at hj
                          omega
                        subst hjc
                        rw [List.getElem_concat_length L c L.length rfl]
                        exact ⟨vb, vc, hvb, hvc, fun hc => absurd hc (by omega),
                          fun _ => le_of_not_lt hlt⟩
              | some vc, none => rw [hvc, hvb] at h; exact absurd h (by simp)
              | none, some vb => rw [hvc, hvb] at h; exact absurd h (by simp)
              | none, none => rw [hvc, hvb] at h; exact absurd h (by simp)

end Problem

/-- Claim C6: whenever `partition_tour` returns a partition without aborting,
that partition is feasible, is one of the rotation candidates, and is the
minimum-cost feasible candidate, where a later candidate replaces the
incumbent only with strictly lower cost (so cost ties keep the first found:
the result is strictly cheaper than every earlier feasible candidate and at
most as expensive as every later one). -/
theorem c6_partitioner {α : Type} [LinearOrderedCommRing α]
    (inst : VehicleRoutingProblem α) (interior : List ℕ) (p : List (List ℕ))
    (hperm : interior.Perm (List.range' 1 inst.numberOfCustomers))
    (hres : Problem.partitionTour inst (0 :: interior ++ [0]) = some (some p)) :
    RoutingPlan.feasible inst p = .ok () ∧
      ∃ k, ∃ hk : k < (Problem.candidates inst interior).length,
        (Problem.candidates inst interior)[k] = p ∧
        ∀ j (hj : j < (Problem.candidates inst interior).length), j ≠ k →
          RoutingPlan.feasible inst ((Problem.candidates inst interior)[j]) = .ok () →
          ∃ vp vj, RoutingPlan.value inst p = some vp ∧
            RoutingPlan.value inst ((Problem.candidates inst interior)[j]) = some vj ∧
            (j < k → vp < vj) ∧ (k < j → vp ≤ vj) := by
  unfold Problem.partitionTour at hres
  rw [if_neg (by simp)] at hres
  have hdrop : ((0 :: interior ++ [0]).drop 1).dropLast = interior := by
    simp
  rw [hdrop] at hres
  obtain ⟨k, hk, hget, hfeas, hmin⟩ := Problem.partitionFold_spec inst _ p hres
  exact ⟨hfeas, ⟨k, hk, hget, hmin⟩⟩

/-- Claim C6 (witness): the one-customer instance, tour `[0,1,0]`, where the
partitioner returns `[[1],[]]`. -/
theorem c6_witness :
    RoutingPlan.feasible instOne [[1], []] = .ok () ∧
      ∃ k, ∃ hk : k < (Problem.candidates instOne [1]).length,
        (Problem.candidates instOne [1])[k] = [[1], []] ∧
        ∀ j (hj : j < (Problem.candidates instOne [1]).length), j ≠ k →
          RoutingPlan.feasible instOne ((Problem.candidates instOne [1])[j]) = .ok () →
          ∃ vp vj, RoutingPlan.value instOne [[1], []] = some vp ∧
            RoutingPlan.value instOne ((Problem.candidates instOne [1])[j]) = some vj ∧
            (j < k → vp < vj) ∧ (k < j → vp ≤ vj) :=
  c6_partitioner instOne [1] [[1], []] (by decide) (by decide)

namespace Graph

theorem UPair.new_comm (a b : ℕ) : UPair.new a b = UPair.new b a := by
  unfold UPair.new
  rcases lt_trichotomy a b with h | h | h
  · rw [if_pos h, if_neg (by omega)]
  · subst h; rfl
  · rw [if_neg (by omega), if_pos h]

theorem UPair.new_of_endpoints (e : UPair) (hn : e.first < e.second) (v w : ℕ)
    (h : e.first = v ∧ e.second = w ∨ e.first = w ∧ e.second = v) :
    UPair.new v w = e := by
  unfold UPair.new
  rcases h with ⟨h1, h2⟩ | ⟨h1, h2⟩
  · subst h1; subst h2
    rw [if_pos hn]
  · subst h1; subst h2
    rw [if_neg (by omega)]

theorem mem_incSet {rem : Finset UPair} {v : ℕ} {e : UPair} :
    e ∈ incSet rem v ↔ e ∈ rem ∧ (e.first = v ∨ e.second = v) := by
  simp [incSet]

theorem incSet_eq_empty_iff {rem : Finset UPair} {v : ℕ} :
    incSet rem v = ∅ ↔ ∀ e ∈ rem, ¬(e.first = v ∨ e.second = v) := by
  simp [incSet, Finset.filter_eq_empty_iff]

theorem degree_pos {rem : Finset UPair} {v : ℕ} {e : UPair}
    (he : e ∈ rem) (hinc : e.first = v ∨ e.second = v) : 0 < degree rem v := by
  apply Finset.card_pos.mpr
  exact ⟨e, mem_incSet.mpr ⟨he, hinc⟩⟩

theorem degree_erase {rem : Finset UPair} {e : UPair} (he : e ∈ rem) (v : ℕ) :
    degree (rem.erase e) v =
      if e.first = v ∨ e.second = v then degree rem v - 1 else degree rem v := by
  unfold degree incSet
  rw [Finset.filter_erase]
  by_cases hinc : e.first = v ∨ e.second = v
  · rw [if_pos hinc]
    rw [Finset.card_erase_of_mem]
    exact Finset.mem_filter.mpr ⟨he, hinc⟩
  · rw [if_neg hinc]
    rw [Finset.erase_eq_of_not_mem]
    intro hmem
    exact hinc (Finset.mem_filter.mp hmem).2

theorem other_ne {e : UPair} {v : ℕ} (hn : e.first ≠ e.second)
    (hinc : e.first = v ∨ e.second = v) : UPair.other e v ≠ v := by
  unfold UPair.other
  rcases hinc with h | h
  · rw [if_pos h]; rw [← h]; exact fun hc => hn hc.symm
  · by_cases hf : e.first = v
    · rw [if_pos hf]; rw [← hf]; exact fun hc => hn hc.symm
    · rw [if_neg hf]; exact hf

theorem other_endpoints {e : UPair} {v : ℕ} (hinc : e.first = v ∨ e.second = v) :
    e.first = v ∧ e.second = UPair.other e v ∨
      e.first = UPair.other e v ∧ e.second = v := by
  unfold UPair.other
  by_cases hf : e.first = v
  · left; exact ⟨hf, by rw [if_pos hf]⟩
  · right
    rcases hinc with h | h
    · exact absurd h hf
    · exact ⟨by rw [if_neg hf], h⟩

theorem new_other_mem {E rem : Finset UPair} {e : UPair} {v : ℕ}
    (hsub : rem ⊆ E) (hnorm : ∀ e ∈ E, e.first < e.second)
    (he : e ∈ incSet rem v) : UPair.new (UPair.other e v) v ∈ E := by
  obtain ⟨herem, hinc⟩ := mem_incSet.mp he
  have heE : e ∈ E := hsub herem
  rw [UPair.new_comm]
  rw [UPair.new_of_endpoints e (hnorm e heE) v (UPair.other e v)
    (by rcases other_endpoints hinc with h | h
        · exact Or.inl h
        · exact Or.inr h)]
  exact heE

theorem other_mem_verts {E : Finset UPair} {e : UPair} {v : ℕ}
    (heE : e ∈ E) (hinc : e.first = v ∨ e.second = v) :
    UPair.other e v ∈ vertsE E := by
  unfold vertsE
  rcases other_endpoints hinc with h | h
  · exact Finset.mem_union_right _ (Finset.mem_image.mpr ⟨e, heE, h.2⟩)
  · exact Finset.mem_union_left _ (Finset.mem_image.mpr ⟨e, heE, h.1⟩)


theorem mem_verts_of_endpoint {E : Finset UPair} {e : UPair} {v : ℕ}
    (heE : e ∈ E) (hinc : e.first = v ∨ e.second = v) : v ∈ vertsE E := by
  unfold vertsE
  rcases hinc with h | h
  · exact Finset.mem_union_left _ (Finset.mem_image.mpr ⟨e, heE, h⟩)
  · exact Finset.mem_union_right _ (Finset.mem_image.mpr ⟨e, heE, h⟩)

end Graph

namespace Graph

theorem HHCore.push_core {E : Finset UPair} {s : ℕ} {rem : Finset UPair}
    {v : ℕ} {rest acc : List ℕ} {e : UPair}
    (hnorm : ∀ e ∈ E, e.first < e.second)
    (hc : HHCore E s rem (v :: rest) acc) (he : e ∈ incSet rem v) :
    HHCore E s (rem.erase e) (UPair.other e v :: v :: rest) acc := by
  obtain ⟨herem, hinc⟩ := mem_incSet.mp he
  have heE : e ∈ E := hc.rem_sub herem
  refine ⟨?_, ?_, ?_, ?_, ?_, ?_, ?_, ?_⟩
  · exact (Finset.erase_subset e rem).trans hc.rem_sub
  · exact List.chain'_cons.mpr ⟨new_other_mem hc.rem_sub hnorm he, hc.stack_chain⟩
  · intro h
    rw [List.getLast_cons (by simp)]
    exact hc.stack_last (by simp)
  · intro x hx
    have := hc.acc_noinc x hx
    unfold incSet at this ⊢
    rw [Finset.filter_erase, this]
    rfl
  · intro e' he'E he'rem
    by_cases hee : e' = e
    · subst hee
      rcases other_endpoints hinc with h | h
      · exact ⟨Or.inl (by rw [h.1]; exact List.mem_cons_of_mem _ (List.mem_cons_self _ _)),
          Or.inl (by rw [h.2]; exact List.mem_cons_self _ _)⟩
      · exact ⟨Or.inl (by rw [h.1]; exact List.mem_cons_self _ _),
          Or.inl (by rw [h.2]; exact List.mem_cons_of_mem _ (List.mem_cons_self _ _))⟩
    · have he'rem' : e' ∉ rem := by
        intro hmem
        exact he'rem (Finset.mem_erase.mpr ⟨hee, hmem⟩)
      obtain ⟨h1, h2⟩ := hc.consumed e' he'E he'rem'
      constructor
      · rcases h1 with h | h
        · exact Or.inl (List.mem_cons_of_mem _ h)
        · exact Or.inr h
      · rcases h2 with h | h
        · exact Or.inl (List.mem_cons_of_mem _ h)
        · exact Or.inr h
  · have hpos : 0 < rem.card := Finset.card_pos.mpr ⟨e, herem⟩
    have := hc.size
    rw [Finset.card_erase_of_mem herem]
    simp only [List.length_cons] at this ⊢
    omega
  · intro x hx
    rcases List.mem_cons.mp hx with h | h
    · subst h
      exact other_mem_verts heE hinc
    · exact hc.stack_verts x h
  · exact hc.acc_verts

theorem HHCore.pop_core {E : Finset UPair} {s : ℕ} {rem : Finset UPair}
    {v : ℕ} {rest acc : List ℕ}
    (hc : HHCore E s rem (v :: rest) acc) (hstuck : incSet rem v = ∅) :
    HHCore E s rem rest (v :: acc) := by
  refine ⟨hc.rem_sub, hc.stack_chain.tail, ?_, ?_, ?_, ?_, ?_, ?_⟩
  · intro h
    have := hc.stack_last (by simp)
    rw [List.getLast_cons h] at this
    exact this
  · intro x hx
    rcases List.mem_cons.mp hx with h | h
    · subst h; exact hstuck
    · exact hc.acc_noinc x h
  · intro e' he'E he'rem
    obtain ⟨h1, h2⟩ := hc.consumed e' he'E he'rem
    constructor
    · rcases h1 with h | h
      · rcases List.mem_cons.mp h with h' | h'
        · exact Or.inr (h' ▸ List.mem_cons_self _ _)
        · exact Or.inl h'
      · exact Or.inr (List.mem_cons_of_mem _ h)
    · rcases h2 with h | h
      · rcases List.mem_cons.mp h with h' | h'
        · exact Or.inr (h' ▸ List.mem_cons_self _ _)
        · exact Or.inl h'
      · exact Or.inr (List.mem_cons_of_mem _ h)
  · have := hc.size
    simp only [List.length_cons] at this ⊢
    omega
  · intro x hx
    exact hc.stack_verts x (List.mem_cons_of_mem _ hx)
  · intro x hx
    rcases List.mem_cons.mp hx with h | h
    · subst h
      exact hc.stack_verts x (List.mem_cons_self _ _)
    · exact hc.acc_verts x h

end Graph

namespace Graph

theorem odd_sub_one_iff {d : ℕ} (hd : 0 < d) : Odd (d - 1) ↔ ¬ Odd d := by
  rw [Nat.odd_iff, Nat.odd_iff]
  omega

theorem ParityAt.flip {rem : Finset UPair} {e : UPair} {v a : ℕ}
    (herem : e ∈ rem) (hne : e.first ≠ e.second) (hinc : e.first = v ∨ e.second = v)
    (h : ParityAt rem a v) : ParityAt (rem.erase e) a (UPair.other e v) := by
  have hwv : UPair.other e v ≠ v := other_ne hne hinc
  intro x
  rw [degree_erase herem x]
  by_cases hxe : e.first = x ∨ e.second = x
  · have hd : 0 < degree rem x := degree_pos herem hxe
    have hxvw : x = v ∨ x = UPair.other e v := by
      rcases other_endpoints hinc with ⟨h1, h2⟩ | ⟨h1, h2⟩ <;>
        rcases hxe with hx | hx <;> omega
    rw [if_pos hxe, odd_sub_one_iff hd, h x]
    rcases hxvw with hxv | hxw
    · subst hxv
      have hvw : ¬ (x = UPair.other e x) := fun hc => hwv hc.symm
      simp only [Xor']
      simp only [hvw]
      tauto
    · subst hxw
      have hov : ¬ (UPair.other e v = v) := hwv
      simp only [Xor']
      simp only [hov]
      tauto
  · have hxv : x ≠ v := by
      intro hc
      subst hc
      exact hxe (by rcases hinc with hh | hh
                    · exact Or.inl hh
                    · exact Or.inr hh)
    have hxw : x ≠ UPair.other e v := by
      intro hc
      subst hc
      rcases other_endpoints hinc with ⟨h1, h2⟩ | ⟨h1, h2⟩
      · exact hxe (Or.inr h2)
      · exact hxe (Or.inl h1)
    rw [if_neg hxe, h x]
    simp [Xor', hxv, hxw]

theorem ParityAt.stuck_eq {rem : Finset UPair} {v a : ℕ}
    (h : ParityAt rem a v) (hstuck : incSet rem v = ∅) : v = a := by
  have h0 : degree rem v = 0 := by
    unfold degree
    rw [hstuck]
    rfl
  by_contra hva
  have := (h v).mpr (by simp [Xor', hva])
  rw [h0] at this
  simp [Nat.odd_iff] at this

theorem ParityAt.all_even {rem : Finset UPair} {v a : ℕ}
    (h : ParityAt rem a v) (hva : v = a) : ∀ x, ¬ Odd (degree rem x) := by
  intro x hodd
  have := (h x).mp hodd
  subst hva
  simp [Xor'] at this

theorem ParityAt.refl_of_even {rem : Finset UPair}
    (h : ∀ x, ¬ Odd (degree rem x)) (u : ℕ) : ParityAt rem u u := by
  intro x
  constructor
  · intro hodd
    exact absurd hodd (h x)
  · intro hx
    simp [Xor'] at hx

end Graph

namespace Graph

theorem HHPar.push_par {E : Finset UPair} {s : ℕ} {rem : Finset UPair}
    {v : ℕ} {rest acc : List ℕ} {e : UPair}
    (hnorm : ∀ e ∈ E, e.first < e.second) (hsub : rem ⊆ E)
    (hp : HHPar E s rem (v :: rest) acc) (he : e ∈ incSet rem v) :
    HHPar E s (rem.erase e) (UPair.other e v :: v :: rest) acc := by
  obtain ⟨herem, hinc⟩ := mem_incSet.mp he
  have hne : e.first ≠ e.second := Nat.ne_of_lt (hnorm e (hsub herem))
  match acc with
  | [] =>
      intro _
      exact ParityAt.flip herem hne hinc (hp (by simp))
  | a :: t =>
      obtain ⟨hchain, hlast, hanchor⟩ := hp
      refine ⟨hchain, hlast, ?_⟩
      intro _
      obtain ⟨k, hk, hedge, hpar⟩ := hanchor (by simp)
      refine ⟨k + 1, by simpa using Nat.succ_lt_succ hk, hedge, ?_⟩
      exact ParityAt.flip herem hne hinc hpar

theorem HHPar.pop_par {E : Finset UPair} {s : ℕ} {rem : Finset UPair}
    {v u : ℕ} {rest' acc : List ℕ}
    (hcore : HHCore E s rem (v :: u :: rest') acc)
    (hp : HHPar E s rem (v :: u :: rest') acc) (hstuck : incSet rem v = ∅) :
    HHPar E s rem (u :: rest') (v :: acc) := by
  have hvu : UPair.new v u ∈ E := (List.chain'_cons.mp hcore.stack_chain).1
  have huv : UPair.new u v ∈ E := by rw [UPair.new_comm]; exact hvu
  match acc with
  | [] =>
      have hps : ParityAt rem s v := hp (by simp)
      have hvs : v = s := hps.stuck_eq hstuck
      have heven : ∀ x, ¬ Odd (degree rem x) := hps.all_even hvs
      refine ⟨by simp [ChainE], by simp [hvs], ?_⟩
      intro _
      exact ⟨0, by simp, huv, ParityAt.refl_of_even heven u⟩
  | a :: t =>
      obtain ⟨hchain, hlast, hanchor⟩ := hp
      obtain ⟨k, hk, hedge, hpar⟩ := hanchor (by simp)
      have hva : v = (v :: u :: rest').get ⟨k, hk⟩ := hpar.stuck_eq hstuck
      have heven : ∀ x, ¬ Odd (degree rem x) := hpar.all_even hva
      refine ⟨List.chain'_cons.mpr ⟨by rw [hva]; exact hedge, hchain⟩, ?_, ?_⟩
      · rw [List.getLast_cons (by simp)]
        exact hlast
      · intro _
        exact ⟨0, by simp, huv, ParityAt.refl_of_even heven u⟩

theorem hierholzerAux_nil (pick : ℕ → Finset UPair → UPair) (f : ℕ)
    (rem : Finset UPair) (acc : List ℕ) :
    hierholzerAux pick (f + 1) rem [] acc = (acc, rem) := rfl

theorem hierholzerAux_push (pick : ℕ → Finset UPair → UPair) (f : ℕ)
    (rem : Finset UPair) (v : ℕ) (rest acc : List ℕ)
    (h : (incSet rem v).Nonempty) :
    hierholzerAux pick (f + 1) rem (v :: rest) acc =
      hierholzerAux pick f (rem.erase (pick v (incSet rem v)))
        (UPair.other (pick v (incSet rem v)) v :: v :: rest) acc := by
  simp only [hierholzerAux, if_pos h]

theorem hierholzerAux_pop (pick : ℕ → Finset UPair → UPair) (f : ℕ)
    (rem : Finset UPair) (v : ℕ) (rest acc : List ℕ)
    (h : ¬ (incSet rem v).Nonempty) :
    hierholzerAux pick (f + 1) rem (v :: rest) acc =
      hierholzerAux pick f rem rest (v :: acc) := by
  simp only [hierholzerAux, if_neg h]

end Graph

namespace Graph

theorem hhAux_core (pick : ℕ → Finset UPair → UPair)
    (hpick : ∀ v s, s.Nonempty → pick v s ∈ s)
    (E : Finset UPair) (s : ℕ) (hnorm : ∀ e ∈ E, e.first < e.second) :
    ∀ fuel rem stack acc, HHCore E s rem stack acc →
      2 * rem.card + stack.length + 1 ≤ fuel →
      HHOut E rem stack acc (hierholzerAux pick fuel rem stack acc).1
        (hierholzerAux pick fuel rem stack acc).2 := by
  intro fuel
  induction fuel with
  | zero =>
      intro rem stack acc _ hfuel
      omega
  | succ f IH =>
      intro rem stack acc hc hfuel
      match stack with
      | [] =>
          rw [hierholzerAux_nil]
          exact ⟨Finset.Subset.refl _, by simp, fun v hv => hv, hc.acc_noinc,
            fun e heE herem => by
              obtain ⟨h1, h2⟩ := hc.consumed e heE herem
              exact ⟨h1.resolve_left (by simp), h2.resolve_left (by simp)⟩,
            by simp, hc.acc_verts, fun h => absurd rfl h, fun _ => ⟨rfl, rfl⟩⟩
      | v :: rest =>
          by_cases hincne : (incSet rem v).Nonempty
          · rw [hierholzerAux_push pick f rem v rest acc hincne]
            have hemem : pick v (incSet rem v) ∈ incSet rem v := hpick _ _ hincne
            have hrmem : pick v (incSet rem v) ∈ rem := (mem_incSet.mp hemem).1
            have hcnew := hc.push_core hnorm hemem
            have hpos : 0 < rem.card := Finset.card_pos.mpr ⟨_, hrmem⟩
            have hcard : (rem.erase (pick v (incSet rem v))).card = rem.card - 1 :=
              Finset.card_erase_of_mem hrmem
            have hout := IH (rem.erase (pick v (incSet rem v)))
              (UPair.other (pick v (incSet rem v)) v :: v :: rest) acc hcnew
              (by simp only [List.length_cons] at hfuel ⊢; omega)
            refine ⟨hout.sub.trans (Finset.erase_subset _ _), ?_, hout.acc_mem,
              hout.noinc, hout.consumedE, ?_, hout.verts, ?_, ?_⟩
            · intro x hx
              exact hout.stack_mem x (List.mem_cons_of_mem _ hx)
            · have := hout.size
              simp only [List.length_cons] at this ⊢
              omega
            · intro h
              have := hout.headEq (by simp)
              rw [this]
              rw [List.getLast_cons (by simp : (v :: rest) ≠ [])]
            · intro h
              exact absurd h (by simp)
          · rw [hierholzerAux_pop pick f rem v rest acc hincne]
            have hstuck : incSet rem v = ∅ := Finset.not_nonempty_iff_eq_empty.mp hincne
            have hcnew := hc.pop_core hstuck
            have hout := IH rem rest (v :: acc) hcnew
              (by simp only [List.length_cons] at hfuel ⊢; omega)
            refine ⟨hout.sub, ?_, ?_, hout.noinc, hout.consumedE, ?_, hout.verts, ?_, ?_⟩
            · intro x hx
              rcases List.mem_cons.mp hx with h | h
              · exact h ▸ hout.acc_mem v (List.mem_cons_self _ _)
              · exact hout.stack_mem x h
            · intro x hx
              exact hout.acc_mem x (List.mem_cons_of_mem _ hx)
            · have := hout.size
              simp only [List.length_cons] at this ⊢
              omega
            · intro h
              match rest with
              | [] =>
                  obtain ⟨hout1, _⟩ := hout.nil_id rfl
                  rw [hout1]
                  rfl
              | u :: rest' =>
                  have := hout.headEq (by simp)
                  rw [this]
                  rw [List.getLast_cons (by simp : (u :: rest') ≠ [])]
            · intro h
              exact absurd h (by simp)

end Graph

namespace Graph

theorem hhAux_par (pick : ℕ → Finset UPair → UPair)
    (hpick : ∀ v s, s.Nonempty → pick v s ∈ s)
    (E : Finset UPair) (s : ℕ) (hnorm : ∀ e ∈ E, e.first < e.second) :
    ∀ fuel rem stack acc, HHCore E s rem stack acc → HHPar E s rem stack acc →
      2 * rem.card + stack.length + 1 ≤ fuel →
      ChainE E (hierholzerAux pick fuel rem stack acc).1 ∧
        ∀ h : (hierholzerAux pick fuel rem stack acc).1 ≠ [],
          (hierholzerAux pick fuel rem stack acc).1.getLast h = s := by
  intro fuel
  induction fuel with
  | zero =>
      intro rem stack acc _ _ hfuel
      omega
  | succ f IH =>
      intro rem stack acc hc hp hfuel
      match stack with
      | [] =>
          rw [hierholzerAux_nil]
          match acc with
          | [] => exact ⟨List.chain'_nil, fun h => absurd rfl h⟩
          | a :: t => exact ⟨hp.1, fun h => hp.2.1⟩
      | v :: rest =>
          by_cases hincne : (incSet rem v).Nonempty
          · rw [hierholzerAux_push pick f rem v rest acc hincne]
            have hemem : pick v (incSet rem v) ∈ incSet rem v := hpick _ _ hincne
            have hrmem : pick v (incSet rem v) ∈ rem := (mem_incSet.mp hemem).1
            have hpos : 0 < rem.card := Finset.card_pos.mpr ⟨_, hrmem⟩
            have hcard : (rem.erase (pick v (incSet rem v))).card = rem.card - 1 :=
              Finset.card_erase_of_mem hrmem
            exact IH _ _ _ (hc.push_core hnorm hemem) (hp.push_par hnorm hc.rem_sub hemem)
              (by simp only [List.length_cons] at hfuel ⊢; omega)
          · rw [hierholzerAux_pop pick f rem v rest acc hincne]
            have hstuck : incSet rem v = ∅ := Finset.not_nonempty_iff_eq_empty.mp hincne
            match rest with
            | [] =>
                match f, hfuel with
                | f' + 1, _ =>
                    rw [hierholzerAux_nil]
                    match acc with
                    | [] =>
                        have hps : ParityAt rem s v := hp (by simp)
                        have hvs : v = s := hps.stuck_eq hstuck
                        exact ⟨by simp [ChainE], fun h => by simp [hvs]⟩
                    | a :: t =>
                        obtain ⟨hchain, hlast, hanchor⟩ := hp
                        obtain ⟨k, hk, hedge, hpar⟩ := hanchor (by simp)
                        have hk0 : k = 0 := by
                          simp only [List.length_cons, List.length_nil] at hk
                          omega
                        subst hk0
                        refine ⟨List.chain'_cons.mpr ⟨hedge, hchain⟩, ?_⟩
                        intro h
                        rw [List.getLast_cons (by simp : (a :: t) ≠ [])]
                        exact hlast
            | u :: rest' =>
                exact IH _ _ _ (hc.pop_core hstuck) (hp.pop_par hc hstuck)
                  (by simp only [List.length_cons] at hfuel ⊢; omega)

end Graph

namespace Graph

theorem reach_mem_out {E : Finset UPair} {out : List ℕ} {remF : Finset UPair}
    (hnoinc : ∀ v ∈ out, incSet remF v = ∅)
    (hconsumed : ∀ e ∈ E, e ∉ remF → e.first ∈ out ∧ e.second ∈ out)
    {s v : ℕ} (hs : s ∈ out) (hr : Reach E s v) : v ∈ out := by
  induction hr with
  | refl => exact hs
  | tail hab hstep ih =>
      obtain ⟨e, heE, hends⟩ := hstep
      have hb : incSet remF _ = ∅ := hnoinc _ ih
      have henotin : e ∉ remF := by
        intro hmem
        have hmem2 : e ∈ incSet remF _ := mem_incSet.mpr ⟨hmem, by
          rcases hends with ⟨h1, h2⟩ | ⟨h1, h2⟩
          · exact Or.inl h1
          · exact Or.inr h2⟩
        rw [hb] at hmem2
        exact absurd hmem2 (Finset.not_mem_empty e)
      obtain ⟨hf, hs2⟩ := hconsumed e heE henotin
      rcases hends with ⟨h1, h2⟩ | ⟨h1, h2⟩
      · exact h2 ▸ hs2
      · exact h1 ▸ hf

theorem remF_eq_empty {E : Finset UPair} {out : List ℕ} {remF : Finset UPair}
    (hsub : remF ⊆ E)
    (hnoinc : ∀ v ∈ out, incSet remF v = ∅)
    (hconsumed : ∀ e ∈ E, e ∉ remF → e.first ∈ out ∧ e.second ∈ out)
    {s : ℕ} (hs : s ∈ out)
    (hconn : ∀ v ∈ vertsE E, Reach E s v) : remF = ∅ := by
  by_contra hne
  obtain ⟨e, he⟩ := Finset.nonempty_iff_ne_empty.mpr hne
  have heE := hsub he
  have hfv : e.first ∈ vertsE E := mem_verts_of_endpoint heE (Or.inl rfl)
  have hfo : e.first ∈ out := reach_mem_out hnoinc hconsumed hs (hconn _ hfv)
  have h0 := hnoinc _ hfo
  have hmem2 : e ∈ incSet remF e.first := mem_incSet.mpr ⟨he, Or.inl rfl⟩
  rw [h0] at hmem2
  exact absurd hmem2 (Finset.not_mem_empty _)

theorem ChainE.rev {E : Finset UPair} {l : List ℕ} (h : ChainE E l) :
    ChainE E l.reverse := by
  rw [ChainE, List.chain'_reverse]
  exact h.imp (fun a b hab => by
    show UPair.new b a ∈ E
    rw [UPair.new_comm]
    exact hab)

end Graph

open Graph in
/-- Claim C8 (amended): for MST and matching edge lists whose union—as the
deduplicated edge set the algorithm actually builds—has all degrees even, is
connected, and whose first MST edge starts at the depot (as Prim rooted at
the depot guarantees), `find_eulerian_tour` returns a circuit with exactly
(number of distinct union edges) + 1 vertices, whose consecutive pairs are
all union edges, starting and ending at the depot. -/
theorem c8_amended (pick : ℕ → Finset UPair → UPair)
    (hpick : ∀ v s, s.Nonempty → pick v s ∈ s)
    (mst matching : List UPair) (e0 : UPair) (tl : List UPair)
    (hmst : mst = e0 :: tl) (hs0 : e0.first = 0)
    (hnorm : ∀ e ∈ (mst ++ matching).toFinset, e.first < e.second)
    (heven : ∀ x, Even (degree (mst ++ matching).toFinset x))
    (hconn : ∀ v ∈ vertsE (mst ++ matching).toFinset,
      Reach (mst ++ matching).toFinset 0 v) :
    ∃ T, findEulerianTour pick mst matching = some T ∧
      T.length = (mst ++ matching).toFinset.card + 1 ∧
      List.Chain' (fun a b => UPair.new a b ∈ (mst ++ matching).toFinset) T ∧
      T.head? = some 0 ∧ T.getLast? = some 0 := by
  subst hmst
  set E := ((e0 :: tl) ++ matching).toFinset with hE
  have heven' : ∀ x, ¬ Odd (degree E x) := by
    intro x
    rw [Nat.not_odd_iff_even]
    exact heven x
  have he0E : e0 ∈ E := by
    rw [hE]
    simp
  have hsverts : e0.first ∈ vertsE E := mem_verts_of_endpoint he0E (Or.inl rfl)
  have hcore : HHCore E e0.first E [e0.first] [] := by
    refine ⟨Finset.Subset.refl _, by simp [ChainE], fun h => rfl,
      fun x hx => absurd hx (List.not_mem_nil x),
      fun e he hne => absurd he hne, by simp,
      fun x hx => ?_, fun x hx => absurd hx (List.not_mem_nil x)⟩
    rcases List.mem_singleton.mp hx with rfl
    exact hsverts
  have hpar : HHPar E e0.first E [e0.first] [] := by
    intro h
    exact ParityAt.refl_of_even heven' e0.first
  have hfuel : 2 * E.card + [e0.first].length + 1 ≤ 2 * E.card + 2 := by simp
  have hout := hhAux_core pick hpick E e0.first hnorm (2 * E.card + 2) E [e0.first] [] hcore hfuel
  have hpp := hhAux_par pick hpick E e0.first hnorm (2 * E.card + 2) E [e0.first] [] hcore hpar hfuel
  have hconn' : ∀ v ∈ vertsE E, Reach E e0.first v := by
    rw [hs0]
    exact hconn
  have hsmem : e0.first ∈ (hierholzerAux pick (2 * E.card + 2) E [e0.first] []).1 :=
    hout.stack_mem e0.first (List.mem_singleton.mpr rfl)
  have hrem0 : (hierholzerAux pick (2 * E.card + 2) E [e0.first] []).2 = ∅ :=
    remF_eq_empty hout.sub hout.noinc hout.consumedE hsmem hconn'
  have hlen : (hierholzerAux pick (2 * E.card + 2) E [e0.first] []).1.length = E.card + 1 := by
    have := hout.size
    rw [hrem0] at this
    simp at this
    omega
  have houtne : (hierholzerAux pick (2 * E.card + 2) E [e0.first] []).1 ≠ [] :=
    fun hc => by rw [hc] at hsmem; exact absurd hsmem (List.not_mem_nil _)
  have h0out : (0 : ℕ) ∈ (hierholzerAux pick (2 * E.card + 2) E [e0.first] []).1 := by
    rw [← hs0]
    exact hsmem
  have hrawhead :
      (hierholzerAux pick (2 * E.card + 2) E [e0.first] []).1.reverse.head? = some 0 := by
    rw [List.head?_reverse, List.getLast?_eq_getLast _ houtne, hpp.2 houtne, hs0]
  have hrawlast :
      (hierholzerAux pick (2 * E.card + 2) E [e0.first] []).1.reverse.getLast? = some 0 := by
    rw [List.getLast?_reverse, hout.headEq (by simp), hs0]
    rfl
  have h0raw : (0 : ℕ) ∈ (hierholzerAux pick (2 * E.card + 2) E [e0.first] []).1.reverse :=
    List.mem_reverse.mpr h0out
  obtain ⟨rt, hraw⟩ : ∃ rt,
      (hierholzerAux pick (2 * E.card + 2) E [e0.first] []).1.reverse = 0 :: rt := by
    match hr : (hierholzerAux pick (2 * E.card + 2) E [e0.first] []).1.reverse with
    | [] => rw [hr] at hrawhead; exact absurd hrawhead (by simp)
    | c :: rt =>
        rw [hr] at hrawhead
        simp only [List.head?_cons, Option.some.injEq] at hrawhead
        exact ⟨rt, by rw [hrawhead]⟩
  refine ⟨(hierholzerAux pick (2 * E.card + 2) E [e0.first] []).1.reverse, ?_, ?_, ?_, ?_, ?_⟩
  · show findEulerianTour pick (e0 :: tl) matching = _
    simp only [findEulerianTour]
    rw [← hE]
    rw [if_pos h0raw]
    rw [hraw, List.indexOf_cons_self, List.rotate_zero]
  · rw [List.length_reverse]
    exact hlen
  · exact hpp.1.rev
  · exact hrawhead
  · exact hrawlast

namespace Graph

theorem pickMin_mem : ∀ (v : ℕ) (s : Finset UPair), s.Nonempty → pickMin v s ∈ s := by
  intro v s h
  unfold pickMin
  rw [dif_pos h]
  exact s.min'_mem h

theorem degree_eq_zero_of_not_mem_verts {E : Finset UPair} {x : ℕ}
    (hx : x ∉ vertsE E) : degree E x = 0 := by
  unfold degree
  rw [Finset.card_eq_zero]
  rw [Finset.eq_empty_iff_forall_not_mem]
  intro e he
  obtain ⟨heE, hinc⟩ := mem_incSet.mp he
  exact hx (mem_verts_of_endpoint heE hinc)

theorem vertsE_lt {E : Finset UPair} {n : ℕ}
    (hnorm : ∀ e ∈ E, e.first < e.second) (hrange : ∀ e ∈ E, e.second < n) :
    ∀ v ∈ vertsE E, v < n := by
  intro v hv
  unfold vertsE at hv
  rcases Finset.mem_union.mp hv with h | h <;> obtain ⟨e, heE, heq⟩ := Finset.mem_image.mp h
  · have := hnorm e heE
    have := hrange e heE
    omega
  · have := hrange e heE
    omega

theorem convertAux_mem : ∀ (l : List ℕ) (vis : Finset ℕ) (x : ℕ),
    x ∈ convertAux vis l ↔ x ∈ l ∧ x ∉ vis := by
  intro l
  induction l with
  | nil => intro vis x; simp [convertAux]
  | cons c rest ih =>
      intro vis x
      by_cases hc : c ∈ vis
      · rw [show convertAux vis (c :: rest) = convertAux vis rest from by
          simp [convertAux, hc]]
        rw [ih]
        constructor
        · exact fun ⟨h1, h2⟩ => ⟨List.mem_cons_of_mem _ h1, h2⟩
        · rintro ⟨h1, h2⟩
          rcases List.mem_cons.mp h1 with h | h
          · exact absurd (h ▸ hc) h2
          · exact ⟨h, h2⟩
      · rw [show convertAux vis (c :: rest) = c :: convertAux (insert c vis) rest from by
          simp [convertAux, hc]]
        constructor
        · intro hx
          rcases List.mem_cons.mp hx with h | h
          · exact ⟨h ▸ List.mem_cons_self _ _, h ▸ hc⟩
          · obtain ⟨h1, h2⟩ := (ih (insert c vis) x).mp h
            exact ⟨List.mem_cons_of_mem _ h1,
              fun hv => h2 (Finset.mem_insert_of_mem hv)⟩
        · rintro ⟨h1, h2⟩
          by_cases hxc : x = c
          · exact hxc ▸ List.mem_cons_self _ _
          · rcases List.mem_cons.mp h1 with h | h
            · exact absurd h hxc
            · exact List.mem_cons_of_mem _
                ((ih (insert c vis) x).mpr ⟨h, by
                  rw [Finset.mem_insert]
                  push_neg
                  exact ⟨hxc, h2⟩⟩)

theorem convertAux_nodup : ∀ (l : List ℕ) (vis : Finset ℕ), (convertAux vis l).Nodup := by
  intro l
  induction l with
  | nil => intro vis; simp [convertAux]
  | cons c rest ih =>
      intro vis
      by_cases hc : c ∈ vis
      · rw [show convertAux vis (c :: rest) = convertAux vis rest from by
          simp [convertAux, hc]]
        exact ih vis
      · rw [show convertAux vis (c :: rest) = c :: convertAux (insert c vis) rest from by
          simp [convertAux, hc]]
        refine List.nodup_cons.mpr ⟨?_, ih (insert c vis)⟩
        intro hmem
        exact ((convertAux_mem rest (insert c vis) c).mp hmem).2 (Finset.mem_insert_self c vis)

theorem rotate_indexOf_head {l : List ℕ} (h0 : (0 : ℕ) ∈ l) :
    (l.rotate (l.indexOf 0)).head? = some 0 := by
  have hlen : 0 < l.length := List.length_pos.mpr (List.ne_nil_of_mem h0)
  have hidx : l.indexOf 0 < l.length := List.indexOf_lt_length.mpr h0
  have hne : l.rotate (l.indexOf 0) ≠ [] :=
    List.ne_nil_of_length_pos (by rw [List.length_rotate]; exact hlen)
  rw [List.head?_eq_head hne]
  congr 1
  rw [List.head_eq_getElem]
  rw [List.getElem_rotate]
  simp only [Nat.zero_add, Nat.mod_eq_of_lt hidx]
  exact List.getElem_indexOf hidx

end Graph

open Graph in
/-- Claim C7: for every client count `n ≥ 2`, and every MST/matching stage
output satisfying the postconditions the source establishes before the
Eulerian step (normalized edges between clients `< n`, the MST spanning and
connecting all clients from its first edge's endpoint, which Prim roots at
the depot), and every edge-iteration oracle, the Christofides shortcut tour
starts at the depot, ends with the appended depot, and visits every
non-depot client exactly once in between. -/
theorem c7_christofides (pick : ℕ → Finset UPair → UPair)
    (hpick : ∀ v s, s.Nonempty → pick v s ∈ s) (n : ℕ)
    (mst matching : List UPair) (e0 : UPair) (tl : List UPair)
    (hmst : mst = e0 :: tl)
    (hnorm : ∀ e ∈ (mst ++ matching).toFinset, e.first < e.second)
    (hrange : ∀ e ∈ (mst ++ matching).toFinset, e.second < n)
    (hconn : ∀ v, v < n → Reach (mst ++ matching).toFinset e0.first v) :
    ∃ t mid, chirstofides pick mst matching = some t ∧
      t = 0 :: (mid ++ [0]) ∧ mid.Nodup ∧ (0 : ℕ) ∉ mid ∧
      ∀ c, c ∈ mid ↔ (0 < c ∧ c < n) := by
  subst hmst
  set E := ((e0 :: tl) ++ matching).toFinset with hE
  have he0E : e0 ∈ E := by
    rw [hE]
    simp
  have hn0 : 0 < n := by
    have h1 := hnorm e0 he0E
    have h2 := hrange e0 he0E
    omega
  have hsverts : e0.first ∈ vertsE E := mem_verts_of_endpoint he0E (Or.inl rfl)
  have hcore : HHCore E e0.first E [e0.first] [] := by
    refine ⟨Finset.Subset.refl _, by simp [ChainE], fun h => rfl,
      fun x hx => absurd hx (List.not_mem_nil x),
      fun e he hne => absurd he hne, by simp,
      fun x hx => ?_, fun x hx => absurd hx (List.not_mem_nil x)⟩
    rcases List.mem_singleton.mp hx with rfl
    exact hsverts
  have hfuel : 2 * E.card + [e0.first].length + 1 ≤ 2 * E.card + 2 := by simp
  have hout := hhAux_core pick hpick E e0.first hnorm (2 * E.card + 2) E [e0.first] [] hcore hfuel
  have hvlt : ∀ v ∈ vertsE E, v < n := vertsE_lt hnorm hrange
  have hconn' : ∀ v ∈ vertsE E, Reach E e0.first v := fun v hv => hconn v (hvlt v hv)
  have hsmem : e0.first ∈ (hierholzerAux pick (2 * E.card + 2) E [e0.first] []).1 :=
    hout.stack_mem e0.first (List.mem_singleton.mpr rfl)
  have hrem0 : (hierholzerAux pick (2 * E.card + 2) E [e0.first] []).2 = ∅ :=
    remF_eq_empty hout.sub hout.noinc hout.consumedE hsmem hconn'
  have hcov : ∀ v, v < n → v ∈ (hierholzerAux pick (2 * E.card + 2) E [e0.first] []).1 :=
    fun v hv => reach_mem_out hout.noinc hout.consumedE hsmem (hconn v hv)
  have houtlt : ∀ v ∈ (hierholzerAux pick (2 * E.card + 2) E [e0.first] []).1, v < n :=
    fun v hv => hvlt v (hout.verts v hv)
  have h0out : (0 : ℕ) ∈ (hierholzerAux pick (2 * E.card + 2) E [e0.first] []).1 := hcov 0 hn0
  have h0raw : (0 : ℕ) ∈ (hierholzerAux pick (2 * E.card + 2) E [e0.first] []).1.reverse :=
    List.mem_reverse.mpr h0out
  have hTmem : ∀ c, c ∈ ((hierholzerAux pick (2 * E.card + 2) E [e0.first] []).1.reverse.rotate
      ((hierholzerAux pick (2 * E.card + 2) E [e0.first] []).1.reverse.indexOf 0)) ↔
      c ∈ (hierholzerAux pick (2 * E.card + 2) E [e0.first] []).1 := by
    intro c
    rw [List.mem_rotate, List.mem_reverse]
  have hThead : ((hierholzerAux pick (2 * E.card + 2) E [e0.first] []).1.reverse.rotate
      ((hierholzerAux pick (2 * E.card + 2) E [e0.first] []).1.reverse.indexOf 0)).head? =
      some 0 := rotate_indexOf_head h0raw
  obtain ⟨Tt, hT⟩ : ∃ Tt,
      ((hierholzerAux pick (2 * E.card + 2) E [e0.first] []).1.reverse.rotate
        ((hierholzerAux pick (2 * E.card + 2) E [e0.first] []).1.reverse.indexOf 0)) =
        0 :: Tt := by
    match hr : ((hierholzerAux pick (2 * E.card + 2) E [e0.first] []).1.reverse.rotate
        ((hierholzerAux pick (2 * E.card + 2) E [e0.first] []).1.reverse.indexOf 0)) with
    | [] => rw [hr] at hThead; exact absurd hThead (by simp)
    | c :: rt =>
        rw [hr] at hThead
        simp only [List.head?_cons, Option.some.injEq] at hThead
        exact ⟨rt, by rw [hThead]⟩
  refine ⟨convertEulerianTourToCircuit
    ((hierholzerAux pick (2 * E.card + 2) E [e0.first] []).1.reverse.rotate
      ((hierholzerAux pick (2 * E.card + 2) E [e0.first] []).1.reverse.indexOf 0)),
    convertAux (insert 0 ∅) Tt, ?_, ?_, convertAux_nodup Tt _, ?_, ?_⟩
  · show chirstofides pick (e0 :: tl) matching = _
    unfold chirstofides
    have hfe : findEulerianTour pick (e0 :: tl) matching =
        some ((hierholzerAux pick (2 * E.card + 2) E [e0.first] []).1.reverse.rotate
          ((hierholzerAux pick (2 * E.card + 2) E [e0.first] []).1.reverse.indexOf 0)) := by
      simp only [findEulerianTour]
      rw [← hE]
      rw [if_pos h0raw]
    rw [hfe]
    rfl
  · unfold convertEulerianTourToCircuit
    rw [hT]
    rw [show convertAux ∅ (0 :: Tt) = 0 :: convertAux (insert 0 ∅) Tt from by
      simp [convertAux]]
    rfl
  · intro hmem
    exact ((convertAux_mem Tt (insert 0 ∅) 0).mp hmem).2 (Finset.mem_insert_self 0 ∅)
  · intro c
    rw [convertAux_mem]
    constructor
    · rintro ⟨hct, hcv⟩
      have hcne : c ≠ 0 := by
        intro hc
        exact hcv (by rw [hc]; exact Finset.mem_insert_self 0 ∅)
      have hcT : c ∈ (hierholzerAux pick (2 * E.card + 2) E [e0.first] []).1 := by
        rw [← hTmem c, hT]
        exact List.mem_cons_of_mem _ hct
      exact ⟨Nat.pos_of_ne_zero hcne, houtlt c hcT⟩
    · rintro ⟨hc0, hcn⟩
      have hcT : c ∈ (0 :: Tt : List ℕ) := by
        rw [← hT, hTmem c]
        exact hcov c hcn
      rcases List.mem_cons.mp hcT with h | h
      · omega
      · refine ⟨h, ?_⟩
        intro hmem
        rcases Finset.mem_insert.mp hmem with h' | h'
        · omega
        · exact absurd h' (Finset.not_mem_empty c)

open Graph in
/-- Claim C8 (counterexample): `mst = [{0,1}]`, `matching = [{0,1}]` form a
connected multigraph in which every vertex has even degree (two parallel
edges), yet the returned circuit is `[0,1]` with 2 vertices, not
`1 + 1 + 1 = 3`: the per-vertex `HashSet`s collapse the parallel edge. -/
theorem c8_counterexample :
    (∀ v ∈ vertsE ([⟨0, 1⟩, ⟨0, 1⟩] : List UPair).toFinset,
        Even (listDegree [⟨0, 1⟩, ⟨0, 1⟩] v)) ∧
      (∀ v ∈ vertsE ([⟨0, 1⟩, ⟨0, 1⟩] : List UPair).toFinset,
        Reach ([⟨0, 1⟩, ⟨0, 1⟩] : List UPair).toFinset 0 v) ∧
      findEulerianTour pickMin [⟨0, 1⟩] [⟨0, 1⟩] = some [0, 1] ∧
      ([0, 1] : List ℕ).length ≠
        ([⟨0, 1⟩] : List UPair).length + ([⟨0, 1⟩] : List UPair).length + 1 := by
  refine ⟨?_, ?_, by decide, by decide⟩
  · intro v hv
    fin_cases hv <;> decide
  · intro v hv
    fin_cases hv
    · exact Relation.ReflTransGen.refl
    · exact Relation.ReflTransGen.single ⟨⟨0, 1⟩, by decide, Or.inl ⟨rfl, rfl⟩⟩

open Graph in
/-- Claim C8 (witness): the triangle `mst = [{0,1},{1,2}]`,
`matching = [{0,2}]` — three distinct edges, all degrees 2, connected — gives
a circuit of 4 vertices whose consecutive pairs are all edges. -/
theorem c8_amended_witness :
    ∃ T, findEulerianTour pickMin [⟨0, 1⟩, ⟨1, 2⟩] [⟨0, 2⟩] = some T ∧
      T.length = (([⟨0, 1⟩, ⟨1, 2⟩] ++ [⟨0, 2⟩] : List UPair)).toFinset.card + 1 ∧
      List.Chain' (fun a b =>
        UPair.new a b ∈ (([⟨0, 1⟩, ⟨1, 2⟩] ++ [⟨0, 2⟩] : List UPair)).toFinset) T ∧
      T.head? = some 0 ∧ T.getLast? = some 0 := by
  apply c8_amended pickMin pickMin_mem [⟨0, 1⟩, ⟨1, 2⟩] [⟨0, 2⟩] ⟨0, 1⟩ [⟨1, 2⟩] rfl rfl
    (by decide)
  · intro x
    by_cases hx : x ∈ vertsE (([⟨0, 1⟩, ⟨1, 2⟩] ++ [⟨0, 2⟩] : List UPair)).toFinset
    · fin_cases hx <;> decide
    · rw [degree_eq_zero_of_not_mem_verts hx]
      exact even_zero
  · intro v hv
    fin_cases hv
    · exact Relation.ReflTransGen.refl
    · exact Relation.ReflTransGen.single ⟨⟨0, 1⟩, by decide, Or.inl ⟨rfl, rfl⟩⟩
    · exact Relation.ReflTransGen.single ⟨⟨0, 2⟩, by decide, Or.inl ⟨rfl, rfl⟩⟩

open Graph in
/-- Claim C7 (witness): the same triangle with `n = 3` clients. -/
theorem c7_christofides_witness :
    ∃ t mid, chirstofides pickMin [⟨0, 1⟩, ⟨1, 2⟩] [⟨0, 2⟩] = some t ∧
      t = 0 :: (mid ++ [0]) ∧ mid.Nodup ∧ (0 : ℕ) ∉ mid ∧
      ∀ c, c ∈ mid ↔ (0 < c ∧ c < 3) := by
  apply c7_christofides pickMin pickMin_mem 3 [⟨0, 1⟩, ⟨1, 2⟩] [⟨0, 2⟩] ⟨0, 1⟩ [⟨1, 2⟩] rfl
    (by decide) (by decide)
  intro v hv
  interval_cases v
  · exact Relation.ReflTransGen.refl
  · exact Relation.ReflTransGen.single ⟨⟨0, 1⟩, by decide, Or.inl ⟨rfl, rfl⟩⟩
  · exact Relation.ReflTransGen.single ⟨⟨0, 2⟩, by decide, Or.inl ⟨rfl, rfl⟩⟩
